import Mathlib

/-!
Verification development for the maybenot traffic-analysis defense framework.

The first part embeds the machine runtime from `src/framework.rs`: trigger
events, machine runtimes, limit checks, transitions, and event dispatch.
Machine integers (`u64`, `usize`) are modelled as `Nat`; `Instant` and
`Duration` are `Nat` microsecond counts (`duration_since` is saturating
subtraction, as in Rust); `f64` and `f32` values are modelled as `ℚ`, with the
IEEE behaviour of division by zero (NaN and infinity comparisons) made
explicit where a fraction check divides by zero.  Rust panics (out-of-bounds
vector indexing, `unwrap` on `None`) are modelled by `Option`: a `none` result
is a panic.  Randomness is an explicit stream of rational draws threaded
through the state.
-/

namespace Maybenot

/-- Modelled from the spec: `constants.rs` is not under `src/`; the spec
(§6, §9) says `STATE_CANCEL` and `STATE_END` are out-of-range sentinel
indices and implementations choose the values.  `usize::MAX`-family values. -/
def STATEEND : Nat := 18446744073709551615

/-- Modelled from the spec: sentinel for a cancel pseudo-state. -/
def STATECANCEL : Nat := 18446744073709551614

/-- Modelled from the spec: sentinel for no transition. -/
def STATENOP : Nat := 18446744073709551613

/-- Modelled from the spec: cap on sampled state limits (`u64::MAX` family). -/
def STATELIMITMAX : Nat := 18446744073709551615

/-- Modelled from the spec: maximum number of states in a machine. -/
def STATEMAXV1 : Nat := 500

/-- Modelled from the spec: byte-size threshold under which packets are
"small" and may be ignored by a machine. -/
def MAXSMALLPACKETSIZE : Nat := 52

/-- The events of the v1 framework, from the `Event` uses in `framework.rs`. -/
inductive EventV1 where
  | nonPaddingRecv
  | paddingRecv
  | nonPaddingSent
  | paddingSent
  | blockingBegin
  | blockingEnd
  | limitReached
  | updateMTU
deriving DecidableEq, Repr

/-- Modelled from the spec: `dist.rs` is not under `src/`.  The spec (§3)
gives a tagged family with a `None`-like absence used by
`framework.rs` (`limit.dist != DistType::None`). -/
inductive DistTypeV1 where
  | dnone
  | uniform
  | normal
deriving DecidableEq, Repr

/-- Modelled from the spec: a distribution with two parameters plus an
additive `start` and an upper clamp `max` (spec §3). -/
structure DistV1 where
  dist : DistTypeV1
  param1 : ℚ
  param2 : ℚ
  start : ℚ
  max : ℚ
deriving DecidableEq, Repr

/-- Modelled from the spec: sampling a distribution given one uniform draw
`u ∈ [0,1)`; `Uniform(low,high)` is inverse-CDF `low + u·(high-low)`,
`start` is additive, a positive `max` clamps, and samples are non-negative. -/
def DistV1.sampleQ (d : DistV1) (u : ℚ) : ℚ :=
  let raw : ℚ :=
    match d.dist with
    | .dnone => 0
    | .uniform => d.param1 + u * (d.param2 - d.param1)
    | .normal => d.param1
  let v := Max.max 0 (raw + d.start)
  if 0 < d.max then Min.min v d.max else v

/-- One draw from the explicit randomness stream (defaults to 1/2 when the
stream is exhausted). -/
def drawQ : List ℚ → ℚ × List ℚ
  | [] => (1/2, [])
  | x :: xs => (x, xs)

/-- A v1 machine state, with the fields `framework.rs` reads.  The
per-event transition rows follow `make_next_state`: a probability vector of
length `num_states + 2`, whose last two columns are the `STATE_CANCEL` and
`STATE_END` pseudo-states. -/
structure StateV1 where
  timeout : DistV1
  actionDist : DistV1
  size : DistV1
  limit : DistV1
  action_is_block : Bool
  block_overwrite : Bool
  limit_includes_nonpadding : Bool
  next_state : List (EventV1 × List ℚ)
deriving DecidableEq, Repr

/-- The all-`None` distribution. -/
def dnoneDist : DistV1 := { dist := .dnone, param1 := 0, param2 := 0, start := 0, max := 0 }

/-- A default state, used only for total indexing where the source
guarantees in-bounds access. -/
def dfltStateV1 : StateV1 :=
  { timeout := dnoneDist, actionDist := dnoneDist, size := dnoneDist, limit := dnoneDist,
    action_is_block := false, block_overwrite := false,
    limit_includes_nonpadding := false, next_state := [] }

/-- Look up the transition probability row of an event (the `next_state`
`HashMap` of v1). -/
def findRow : List (EventV1 × List ℚ) → EventV1 → Option (List ℚ)
  | [], _ => none
  | (e, v) :: rest, ev => if e = ev then some v else findRow rest ev

/-- Modelled from the spec: `State::sample_limit` of v1 `state.rs` is not
under `src/`; per the spec (glossary, §4.3, S6) the limit is sampled from
the state's `limit` distribution, rounded, and absent distributions give
the maximal limit. -/
def StateV1.sampleLimit (s : StateV1) (r : List ℚ) : Nat × List ℚ :=
  if s.limit.dist = DistTypeV1.dnone then (STATELIMITMAX, r)
  else
    (min (round (s.limit.sampleQ (drawQ r).1)).toNat STATELIMITMAX, (drawQ r).2)

/-- Modelled from the spec: `MAX_SAMPLED_TIMEOUT` clamp (§4.3). -/
def MAXSAMPLEDTIMEOUT : ℚ := 100000000000000

/-- Modelled from the spec: `MAX_SAMPLED_BLOCK_DURATION` clamp (§4.3). -/
def MAXSAMPLEDBLOCK : ℚ := 100000000000000

/-- Modelled from the spec: sampling an action timeout in microseconds
(clamped, then truncated to an integer duration). -/
def StateV1.sampleTimeout (s : StateV1) (r : List ℚ) : Nat × List ℚ :=
  ((min (s.timeout.sampleQ (drawQ r).1) MAXSAMPLEDTIMEOUT).floor.toNat, (drawQ r).2)

/-- Modelled from the spec: sampling a blocking duration in microseconds. -/
def StateV1.sampleBlock (s : StateV1) (r : List ℚ) : Nat × List ℚ :=
  ((min (s.actionDist.sampleQ (drawQ r).1) MAXSAMPLEDBLOCK).floor.toNat, (drawQ r).2)

/-- Modelled from the spec and the tests of `framework.rs`: padding size,
never larger than the MTU, and exactly the MTU when no size distribution is
set. -/
def StateV1.sampleSize (s : StateV1) (mtu : Nat) (r : List ℚ) : Nat × List ℚ :=
  if s.size.dist = DistTypeV1.dnone then (mtu, r)
  else
    (min (s.size.sampleQ (drawQ r).1).floor.toNat mtu, (drawQ r).2)

/-- A v1 machine (`Machine` as used by `framework.rs`). -/
structure MachineV1 where
  allowed_padding_bytes : Nat
  max_padding_frac : ℚ
  allowed_blocked_microsec : Nat
  max_blocking_frac : ℚ
  states : List StateV1
  include_small_packets : Bool
deriving DecidableEq, Repr

/-- Per-machine mutable runtime (`MachineRuntime` in `framework.rs`). -/
structure MachineRuntime where
  current_state : Nat
  state_limit : Nat
  padding_sent : Nat
  nonpadding_sent : Nat
  blocking_duration : Nat
  machine_start : Nat
deriving DecidableEq, Repr

/-- The framework's output actions (`Action` in `framework.rs`), with
durations in integer microseconds and the machine id unwrapped to its
index. -/
inductive ActionV1 where
  | cancel (machine : Nat)
  | injectPadding (timeout : Nat) (size : Nat) (machine : Nat)
  | blockOutgoing (timeout : Nat) (duration : Nat) (overwrite : Bool) (machine : Nat)
deriving DecidableEq, Repr

/-- `StateChange` in `framework.rs`. -/
inductive StateChange where
  | changed
  | unchanged
deriving DecidableEq, Repr

/-- The framework state (`Framework` in `framework.rs`), extended with the
explicit randomness stream. -/
structure Framework where
  actions : List (Option ActionV1)
  current_time : Nat
  machines : List MachineV1
  runtime : List MachineRuntime
  global_max_padding_frac : ℚ
  global_nonpadding_sent_bytes : Nat
  global_paddingsent_bytes : Nat
  global_max_blocking_frac : ℚ
  global_blocking_duration : Nat
  global_blocking_started : Nat
  global_blocking_active : Bool
  global_framework_start : Nat
  mtu : Nat
  rng : List ℚ
deriving DecidableEq, Repr

/-- IEEE-style `num / den >= bound` for non-negative integer numerator and
denominator and a positive rational bound: division by zero gives NaN when
the numerator is zero (every comparison false) and +∞ otherwise (≥ any
finite bound). -/
def fracGe (num den : Nat) (bound : ℚ) : Bool :=
  if den = 0 then decide (num ≠ 0) else decide (bound ≤ (num : ℚ) / (den : ℚ))

/-- `Framework::below_limit_padding`. -/
def Framework.belowLimitPadding (f : Framework) (rt : MachineRuntime) (m : MachineV1) : Bool :=
  if rt.padding_sent < m.allowed_padding_bytes then decide (0 < rt.state_limit)
  else if 0 < m.max_padding_frac ∧ rt.nonpadding_sent + rt.padding_sent = 0 then false
  else if 0 < m.max_padding_frac ∧
      fracGe rt.padding_sent (rt.nonpadding_sent + rt.padding_sent) m.max_padding_frac then false
  else if 0 < f.global_max_padding_frac ∧
      fracGe f.global_paddingsent_bytes
        (f.global_paddingsent_bytes + f.global_nonpadding_sent_bytes)
        f.global_max_padding_frac then false
  else decide (0 < rt.state_limit)

/-- `Framework::below_limit_blocking`. -/
def Framework.belowLimitBlocking (f : Framework) (rt : MachineRuntime) (m : MachineV1) : Bool :=
  let current := m.states.getD rt.current_state dfltStateV1
  if current.block_overwrite ∧ ¬ f.global_blocking_active then decide (0 < rt.state_limit)
  else
    let extra := if f.global_blocking_active then f.current_time - f.global_blocking_started else 0
    let mBlockDur := rt.blocking_duration + extra
    let gBlockDur := f.global_blocking_duration + extra
    if mBlockDur < m.allowed_blocked_microsec then decide (0 < rt.state_limit)
    else if 0 < m.max_blocking_frac ∧
        fracGe mBlockDur (f.current_time - rt.machine_start) m.max_blocking_frac then false
    else if 0 < f.global_max_blocking_frac ∧
        fracGe gBlockDur (f.current_time - f.global_framework_start)
          f.global_max_blocking_frac then false
    else decide (0 < rt.state_limit)

/-- `Framework::below_action_limits`. -/
def Framework.belowActionLimits (f : Framework) (rt : MachineRuntime) (m : MachineV1) : Bool :=
  let current := m.states.getD rt.current_state dfltStateV1
  if current.action_is_block then f.belowLimitBlocking rt m
  else f.belowLimitPadding rt m

/-- `Framework::schedule_action`. -/
def Framework.scheduleAction (f : Framework) (rt : MachineRuntime) (m : MachineV1)
    (mi : Nat) (r : List ℚ) : Option ActionV1 × List ℚ :=
  let current := m.states.getD rt.current_state dfltStateV1
  if current.action_is_block then
    (some (.blockOutgoing (current.sampleTimeout r).1
      (current.sampleBlock (current.sampleTimeout r).2).1 current.block_overwrite mi),
      (current.sampleBlock (current.sampleTimeout r).2).2)
  else
    (some (.injectPadding (current.sampleTimeout r).1
      (current.sampleSize f.mtu (current.sampleTimeout r).2).1 mi),
      (current.sampleSize f.mtu (current.sampleTimeout r).2).2)

/-- The cumulative-probability walk of `Framework::next_state`: index `i`
runs over the row, `p` is the uniform draw, and the last two columns map to
the `STATE_CANCEL` and `STATE_END` sentinels. -/
def nsLoop (len : Nat) (p : ℚ) : List ℚ → ℚ → Nat → Nat × Bool
  | [], _, _ => (STATENOP, false)
  | x :: rest, total, i =>
    if p ≤ total + x then
      if i + 2 < len then (i, true)
      else if i + 2 = len then (STATECANCEL, true)
      else (STATEEND, true)
    else nsLoop len p rest (total + x) (i + 1)

/-- `Framework::next_state`: no draw is consumed when the event has no
transition row. -/
def nextStateFn (s : StateV1) (ev : EventV1) (r : List ℚ) : (Nat × Bool) × List ℚ :=
  match findRow s.next_state ev with
  | none => ((0, false), r)
  | some row => (nsLoop row.length (drawQ r).1 row 0 0, (drawQ r).2)

/-- `Framework::transition`.  A `none` result is a Rust panic
(out-of-bounds indexing). -/
def Framework.transition (f : Framework) (mi : Nat) (ev : EventV1) (n : Nat) :
    Option (Framework × StateChange) :=
  (f.machines[mi]?).bind fun machine =>
  (f.runtime[mi]?).bind fun rt =>
  if rt.current_state = STATEEND then some (f, StateChange.unchanged)
  else if ¬ machine.include_small_packets ∧ 0 < n ∧ n ≤ MAXSMALLPACKETSIZE then
    some (f, StateChange.unchanged)
  else
    (machine.states[rt.current_state]?).bind fun curState =>
    let ns := nextStateFn curState ev f.rng
    let next := ns.1.1
    let f1 : Framework := { f with rng := ns.2 }
    if ¬ ns.1.2 then some (f1, StateChange.unchanged)
    else if next = STATECANCEL then
      some ({ f1 with actions := f1.actions.set mi (some (.cancel mi)) },
        StateChange.unchanged)
    else if next = STATEEND then
      some ({ f1 with
          runtime := f1.runtime.set mi ({ rt with current_state := STATEEND }) },
        StateChange.changed)
    else if rt.current_state = next then
      if f1.belowActionLimits rt machine then
        some ({ f1 with
            actions := f1.actions.set mi (f1.scheduleAction rt machine mi f1.rng).1,
            rng := (f1.scheduleAction rt machine mi f1.rng).2 },
          StateChange.unchanged)
      else some (f1, StateChange.unchanged)
    else
      (machine.states[next]?).bind fun nextState =>
      let rt2 : MachineRuntime := { rt with
        current_state := next, state_limit := (nextState.sampleLimit f1.rng).1 }
      let f2 : Framework := { f1 with
        runtime := f1.runtime.set mi rt2, rng := (nextState.sampleLimit f1.rng).2 }
      if f2.belowActionLimits rt2 machine then
        some ({ f2 with
            actions := f2.actions.set mi (f2.scheduleAction rt2 machine mi f2.rng).1,
            rng := (f2.scheduleAction rt2 machine mi f2.rng).2 },
          StateChange.changed)
      else some (f2, StateChange.changed)

/-- The saturating decrement step of `decrement_limit`. -/
def decLimit (rt : MachineRuntime) : MachineRuntime :=
  if 0 < rt.state_limit then { rt with state_limit := rt.state_limit - 1 } else rt

/-- `Framework::decrement_limit`; the recursive
`process_event(LimitReached)` is exactly a `transition` on
`Event::LimitReached`, inlined here.  A `none` result is a Rust panic
(`states[current_state]` with the machine in `STATE_END` or an invalid
state). -/
def Framework.decrementLimit (f : Framework) (mi : Nat) : Option Framework :=
  (f.runtime[mi]?).bind fun rt =>
  let f1 : Framework := { f with runtime := f.runtime.set mi (decLimit rt) }
  if (decLimit rt).state_limit = 0 then
    (f1.machines[mi]?).bind fun machine =>
    (machine.states[(decLimit rt).current_state]?).bind fun st =>
    if st.limit.dist ≠ DistTypeV1.dnone then
      (({ f1 with actions := f1.actions.set mi none } : Framework).transition
        mi .limitReached 0).map (·.1)
    else some f1
  else some f1

/-- The `for mi in 0..self.runtime.len()` loops of `process_event`. -/
def loopMachines (body : Framework → Nat → Option Framework) :
    List Nat → Framework → Option Framework
  | [], f => some f
  | mi :: rest, f => (body f mi).bind (loopMachines body rest)

/-- Loop body for `NonPaddingRecv`, `PaddingRecv` and `UpdateMTU`. -/
def Framework.stepSimple (ev : EventV1) (n : Nat) (f : Framework) (mi : Nat) :
    Option Framework :=
  (f.transition mi ev n).map (·.1)

/-- Loop body for `NonPaddingSent`. -/
def Framework.stepNonPaddingSent (n : Nat) (f : Framework) (mi : Nat) : Option Framework :=
  (f.runtime[mi]?).bind fun rt =>
  let f1 : Framework := { f with
    runtime := f.runtime.set mi ({ rt with nonpadding_sent := rt.nonpadding_sent + n }) }
  (f1.transition mi .nonPaddingSent n).bind fun res =>
  if res.2 = StateChange.unchanged then
    (res.1.runtime[mi]?).bind fun rt2 =>
    if rt2.current_state ≠ STATEEND then
      (res.1.machines[mi]?).bind fun m =>
      (m.states[rt2.current_state]?).bind fun st =>
      if st.limit_includes_nonpadding then res.1.decrementLimit mi else some res.1
    else some res.1
  else some res.1

/-- Loop body for `PaddingSent`. -/
def Framework.stepPaddingSent (n : Nat) (machine : Nat) (f : Framework) (mi : Nat) :
    Option Framework :=
  if mi = machine then
    (f.runtime[mi]?).bind fun rt =>
    let f1 : Framework := { f with
      runtime := f.runtime.set mi ({ rt with padding_sent := rt.padding_sent + n }) }
    (f1.transition mi .paddingSent n).bind fun res =>
    if res.2 = StateChange.unchanged then res.1.decrementLimit mi else some res.1
  else some f

/-- Loop body for `BlockingBegin`. -/
def Framework.stepBlockingBegin (machine : Nat) (f : Framework) (mi : Nat) :
    Option Framework :=
  (f.transition mi .blockingBegin 0).bind fun res =>
  if res.2 = StateChange.unchanged ∧ mi = machine then res.1.decrementLimit mi
  else some res.1

/-- Loop body for `BlockingEnd` (`blocked` is computed before the loop). -/
def Framework.stepBlockingEnd (blocked : Nat) (f : Framework) (mi : Nat) :
    Option Framework :=
  (f.runtime[mi]?).bind fun rt =>
  let f1 : Framework :=
    if blocked ≠ 0 then
      { f with
        runtime := f.runtime.set mi
          ({ rt with blocking_duration := rt.blocking_duration + blocked }) }
    else f
  (f1.transition mi .blockingEnd 0).map (·.1)

/-- The trigger events of the v1 framework (`TriggerEvent` in
`framework.rs`), with `MachineId` unwrapped to its index. -/
inductive TriggerEventV1 where
  | nonPaddingRecv (bytes : Nat)
  | paddingRecv (bytes : Nat)
  | nonPaddingSent (bytes : Nat)
  | paddingSent (bytes : Nat) (machine : Nat)
  | blockingBegin (machine : Nat)
  | blockingEnd
  | limitReached (machine : Nat)
  | updateMTU (newMTU : Nat)
deriving DecidableEq, Repr

/-- `Framework::process_event`. -/
def Framework.processEvent (f : Framework) (e : TriggerEventV1) : Option Framework :=
  match e with
  | .nonPaddingRecv n =>
    loopMachines (Framework.stepSimple .nonPaddingRecv n) (List.range f.runtime.length) f
  | .paddingRecv n =>
    loopMachines (Framework.stepSimple .paddingRecv n) (List.range f.runtime.length) f
  | .nonPaddingSent n =>
    let f1 : Framework :=
      { f with global_nonpadding_sent_bytes := f.global_nonpadding_sent_bytes + n }
    loopMachines (Framework.stepNonPaddingSent n) (List.range f1.runtime.length) f1
  | .paddingSent n machine =>
    let f1 : Framework :=
      { f with global_paddingsent_bytes := f.global_paddingsent_bytes + n }
    loopMachines (Framework.stepPaddingSent n machine) (List.range f1.runtime.length) f1
  | .blockingBegin machine =>
    if ¬ f.global_blocking_active then
      loopMachines (Framework.stepBlockingBegin machine)
        (List.range f.runtime.length)
        ({ f with global_blocking_active := true, global_blocking_started := f.current_time })
    else
      loopMachines (Framework.stepBlockingBegin machine) (List.range f.runtime.length) f
  | .blockingEnd =>
    if f.global_blocking_active then
      loopMachines
        (Framework.stepBlockingEnd (f.current_time - f.global_blocking_started))
        (List.range f.runtime.length)
        ({ f with
           global_blocking_duration :=
             f.global_blocking_duration + (f.current_time - f.global_blocking_started),
           global_blocking_active := false })
    else
      loopMachines (Framework.stepBlockingEnd 0) (List.range f.runtime.length) f
  | .limitReached machine =>
    (f.transition machine .limitReached 0).map (·.1)
  | .updateMTU n =>
    let f1 : Framework := { f with mtu := n }
    loopMachines (Framework.stepSimple .updateMTU n) (List.range f1.runtime.length) f1

/-- `Framework::trigger_events`: reset the action scratch, set the current
time, process all events in order. -/
def Framework.triggerEvents (f : Framework) (events : List TriggerEventV1) (now : Nat) :
    Option Framework :=
  let f1 : Framework :=
    { f with actions := List.replicate f.actions.length none, current_time := now }
  events.foldlM Framework.processEvent f1

/-- The non-empty action scratch entries, as yielded by the iterator that
`trigger_events` returns. -/
def Framework.emittedActions (f : Framework) : List ActionV1 :=
  f.actions.filterMap id

/-- Modelled from the spec: v1 `Dist::validate` (`dist.rs` is not under
`src/`); §3: validation rejects inverted uniform ranges and negative
standard deviations, and an absent distribution is valid. -/
def DistV1.validB (d : DistV1) : Bool :=
  match d.dist with
  | .dnone => true
  | .uniform => decide (d.param1 ≤ d.param2)
  | .normal => decide (0 ≤ d.param2)

/-- Modelled from the spec: v1 `State::validate` (v1 `state.rs` is not
under `src/`).  Per §4.1 and the `make_next_state` row shape, every
transition row has one column per state plus the two pseudo-state columns,
each entry is a probability in `[0,1]` (a zero column is the absent
transition), the per-event probability sum lies in `(0,1]` (the
`validate_machine` test of `framework.rs` rejects the all-zero row), and
the state's distributions are valid. -/
def StateV1.validB (s : StateV1) (num : Nat) : Bool :=
  s.timeout.validB && s.actionDist.validB && s.size.validB && s.limit.validB &&
  s.next_state.all (fun p =>
    decide (p.2.length = num + 2) &&
    p.2.all (fun q => decide (0 ≤ q) && decide (q ≤ 1)) &&
    decide (0 < p.2.sum) && decide (p.2.sum ≤ 1))

/-- Modelled from the spec: v1 `Machine::validate` is not under `src/`.
Per spec §4.2 the fractions are in `[0,1]`, `1 ≤ |states| ≤ STATE_MAX`,
and every state validates against the number of states (§4.1). -/
def MachineV1.wfB (m : MachineV1) : Bool :=
  decide (1 ≤ m.states.length) && decide (m.states.length ≤ STATEMAXV1) &&
  decide (0 ≤ m.max_padding_frac) && decide (m.max_padding_frac ≤ 1) &&
  decide (0 ≤ m.max_blocking_frac) && decide (m.max_blocking_frac ≤ 1) &&
  m.states.all (fun s => s.validB m.states.length)

/-- The runtime `Framework::new` gives every machine. -/
def freshRuntime (now : Nat) : MachineRuntime :=
  { current_state := 0, state_limit := 0, padding_sent := 0, nonpadding_sent := 0,
    blocking_duration := 0, machine_start := now }

/-- `Framework::new`. -/
def Framework.new (machines : List MachineV1) (maxPaddingFrac maxBlockingFrac : ℚ)
    (mtu : Nat) (now : Nat) (rng : List ℚ) : Option Framework :=
  if ¬ machines.all MachineV1.wfB then none
  else if maxPaddingFrac < 0 ∨ 1 < maxPaddingFrac then none
  else if maxBlockingFrac < 0 ∨ 1 < maxBlockingFrac then none
  else some
    { actions := List.replicate machines.length none,
      current_time := now,
      machines := machines,
      runtime := List.replicate machines.length (freshRuntime now),
      global_max_padding_frac := maxPaddingFrac,
      global_nonpadding_sent_bytes := 0,
      global_paddingsent_bytes := 0,
      global_max_blocking_frac := maxBlockingFrac,
      global_blocking_duration := 0,
      global_blocking_started := now,
      global_blocking_active := false,
      global_framework_start := now,
      mtu := mtu,
      rng := rng }

/-! ### Example fixtures (mirroring the machines of the `framework.rs` tests) -/

/-- A point distribution `Uniform(a,a)`. -/
def uQ (a : ℚ) : DistV1 := { dist := .uniform, param1 := a, param2 := a, start := 0, max := 0 }

/-- State 0 of the ping-pong test machine: `PaddingSent` goes to state 1. -/
def exS0 : StateV1 :=
  { dfltStateV1 with
    timeout := uQ 10,
    next_state := [(.paddingSent, [0, 1, 0, 0])] }

/-- State 1 of the ping-pong test machine: `PaddingRecv` goes to state 0. -/
def exS1 : StateV1 :=
  { dfltStateV1 with
    timeout := uQ 1,
    next_state := [(.paddingRecv, [1, 0, 0, 0])] }

/-- The ping-pong test machine. -/
def exM : MachineV1 :=
  { allowed_padding_bytes := 1024000, max_padding_frac := 1,
    allowed_blocked_microsec := 0, max_blocking_frac := 0,
    states := [exS0, exS1], include_small_packets := true }

/-- A runtime fixture with an exhausted state limit. -/
def exRtZero : MachineRuntime :=
  { current_state := 0, state_limit := 0, padding_sent := 0, nonpadding_sent := 0,
    blocking_duration := 0, machine_start := 0 }

/-- A framework fixture over the ping-pong machine. -/
def exF : Framework :=
  { actions := [none], current_time := 0, machines := [exM],
    runtime := [exRtZero],
    global_max_padding_frac := 0, global_nonpadding_sent_bytes := 0,
    global_paddingsent_bytes := 0, global_max_blocking_frac := 0,
    global_blocking_duration := 0, global_blocking_started := 0,
    global_blocking_active := false, global_framework_start := 0, mtu := 150, rng := [] }

/-- The ping-pong machine passes the modelled v1 `Machine::validate`. -/
theorem exM_wfB : exM.wfB = true := by
  norm_num [MachineV1.wfB, StateV1.validB, DistV1.validB, exM, exS0, exS1,
    uQ, dfltStateV1, dnoneDist, STATEMAXV1]

/-- The singleton machine vector passes the validation guard of
`Framework::new`. -/
theorem exM_all_wfB : [exM].all MachineV1.wfB = true := by
  simp [exM_wfB]

/-! ### C1 -/

/-- C1 (corrected): for valid machines and in-range fractions,
`Framework::new` succeeds and initializes every runtime with
`current_state = 0` — but with `state_limit = 0`, not a value sampled from
state 0's limit distribution. -/
theorem frameworkNew_initializes_runtimes (machines : List MachineV1) (mp mb : ℚ)
    (mtu now : Nat) (rng : List ℚ) (hwf : machines.all MachineV1.wfB = true)
    (hmp0 : 0 ≤ mp) (hmp1 : mp ≤ 1) (hmb0 : 0 ≤ mb) (hmb1 : mb ≤ 1) :
    ∃ f, Framework.new machines mp mb mtu now rng = some f ∧
      f.runtime.length = machines.length ∧
      ∀ rt ∈ f.runtime, rt.current_state = 0 ∧ rt.state_limit = 0 ∧
        rt.padding_sent = 0 ∧ rt.nonpadding_sent = 0 ∧
        rt.blocking_duration = 0 ∧ rt.machine_start = now := by
  have h2 : ¬ (mp < 0 ∨ 1 < mp) := by
    push_neg
    exact ⟨hmp0, hmp1⟩
  have h3 : ¬ (mb < 0 ∨ 1 < mb) := by
    push_neg
    exact ⟨hmb0, hmb1⟩
  unfold Framework.new
  rw [if_neg (by simp [hwf]), if_neg h2, if_neg h3]
  refine ⟨_, rfl, by simp, ?_⟩
  intro rt hrt
  have := List.eq_of_mem_replicate hrt
  subst this
  simp [freshRuntime]

/-- C1 witness: the amended theorem applied to the ping-pong machine. -/
theorem frameworkNew_initializes_runtimes_witness :
    [exM].all MachineV1.wfB = true ∧
    ∃ f, Framework.new [exM] 0 0 150 7 [] = some f ∧
      f.runtime.length = [exM].length ∧
      ∀ rt ∈ f.runtime, rt.current_state = 0 ∧ rt.state_limit = 0 ∧
        rt.padding_sent = 0 ∧ rt.nonpadding_sent = 0 ∧
        rt.blocking_duration = 0 ∧ rt.machine_start = 7 :=
  ⟨exM_all_wfB,
   frameworkNew_initializes_runtimes [exM] 0 0 150 7 [] exM_all_wfB
     (by norm_num) (by norm_num) (by norm_num) (by norm_num)⟩

/-- C1 counterexample: the claim as stated is false.  `Framework::new` on
the ping-pong machine yields `state_limit = 0`, while sampling state 0's
limit distribution (which is absent, so the sample is the maximal limit)
yields `STATELIMITMAX ≠ 0`. -/
theorem frameworkNew_state_limit_not_sampled :
    ∃ f, Framework.new [exM] 0 0 150 0 [] = some f ∧
      (f.runtime.getD 0 exRtZero).state_limit = 0 ∧
      ((exM.states.getD 0 dfltStateV1).sampleLimit []).1 = STATELIMITMAX ∧
      STATELIMITMAX ≠ 0 := by
  unfold Framework.new
  rw [if_neg (by simp [exM_wfB]), if_neg (by norm_num), if_neg (by norm_num)]
  refine ⟨_, rfl, ?_, ?_, ?_⟩ <;> decide

/-! ### C2 -/

/-- C2 (corrected): in `below_limit_padding`, the per-machine
zero-denominator case rejects (explicit `total == 0` check), but the global
zero-denominator case computes `0.0/0.0 = NaN`, the `>=` comparison on NaN
is false, so the global check does not reject and the result falls through
to the state-limit gate. -/
theorem belowLimitPadding_zero_denominator (f : Framework) (rt : MachineRuntime)
    (m : MachineV1) (hgrace : ¬ rt.padding_sent < m.allowed_padding_bytes) :
    (0 < m.max_padding_frac → rt.nonpadding_sent + rt.padding_sent = 0 →
      f.belowLimitPadding rt m = false) ∧
    (m.max_padding_frac = 0 → 0 < f.global_max_padding_frac →
      f.global_paddingsent_bytes = 0 → f.global_nonpadding_sent_bytes = 0 →
      f.belowLimitPadding rt m = decide (0 < rt.state_limit)) := by
  constructor
  · intro hfrac hz
    unfold Framework.belowLimitPadding
    rw [if_neg hgrace, if_pos ⟨hfrac, hz⟩]
  · intro hm hg hzp hzn
    unfold Framework.belowLimitPadding
    rw [if_neg hgrace, if_neg (by simp [hm]), if_neg (by simp [hm]),
      if_neg (by simp [hzp, hzn, fracGe])]

/-- C2 witness: the amended theorem applied at a concrete state, covering
both conjuncts. -/
theorem belowLimitPadding_zero_denominator_witness :
    (¬ (0 : Nat) < 0) ∧
    (exF.belowLimitPadding exRtZero { exM with allowed_padding_bytes := 0, max_padding_frac := 1 } = false) ∧
    ({ exF with global_max_padding_frac := 1/2 }.belowLimitPadding exRtZero
      { exM with allowed_padding_bytes := 0, max_padding_frac := 0 } =
        decide (0 < exRtZero.state_limit)) :=
  ⟨by decide,
   (belowLimitPadding_zero_denominator exF exRtZero
      { exM with allowed_padding_bytes := 0, max_padding_frac := 1 } (by decide)).1
     (by norm_num) (by decide),
   (belowLimitPadding_zero_denominator { exF with global_max_padding_frac := 1/2 } exRtZero
      { exM with allowed_padding_bytes := 0, max_padding_frac := 0 } (by decide)).2
     (by norm_num) (by norm_num) (by decide) (by decide)⟩

/-- C2 counterexample: with both global byte counters zero, a positive
global `max_padding_frac`, machine fraction unset and grace consumed, the
padding action is accepted (the claim demands rejection whenever the
global fraction's denominator is zero). -/
theorem belowLimitPadding_global_nan_accepts :
    { exF with global_max_padding_frac := 1/2 }.global_paddingsent_bytes = 0 ∧
    { exF with global_max_padding_frac := 1/2 }.global_nonpadding_sent_bytes = 0 ∧
    (0 : ℚ) < 1/2 ∧
    { exF with global_max_padding_frac := 1/2 }.belowLimitPadding
      { exRtZero with state_limit := 1 }
      { exM with allowed_padding_bytes := 0, max_padding_frac := 0 } = true := by
  refine ⟨rfl, rfl, by norm_num, ?_⟩
  norm_num [Framework.belowLimitPadding, fracGe, exF, exRtZero, exM]

/-! ### C3 -/

/-- C3: for every framework state, machine and runtime, an exhausted state
limit (`state_limit = 0`) makes `below_action_limits` return false, on
both the padding and the blocking path, including the `block_overwrite`
special case and the grace-budget branches. -/
theorem belowActionLimits_of_state_limit_zero (f : Framework) (rt : MachineRuntime)
    (m : MachineV1) (h : rt.state_limit = 0) : f.belowActionLimits rt m = false := by
  unfold Framework.belowActionLimits Framework.belowLimitBlocking Framework.belowLimitPadding
  simp only [h]
  split
  · split
    · simp
    · split
      · simp
      · split
        · rfl
        · split
          · rfl
          · simp
  · split
    · simp
    · split
      · rfl
      · split
        · rfl
        · split
          · rfl
          · simp

/-- C3 witness: the theorem applied at a concrete framework, runtime and
machine with `state_limit = 0`. -/
theorem belowActionLimits_of_state_limit_zero_witness :
    exRtZero.state_limit = 0 ∧ exF.belowActionLimits exRtZero exM = false :=
  ⟨rfl, belowActionLimits_of_state_limit_zero exF exRtZero exM rfl⟩

/-! ### Well-formedness and the reachable-state invariant -/

/-- Propositional form of the transition-row shape: every row has one
column per state plus the two pseudo-state columns. -/
def StateV1.wfP (num : Nat) (s : StateV1) : Prop :=
  ∀ p ∈ s.next_state, (p.2 : List ℚ).length = num + 2

/-- Propositional form of v1 machine validity. -/
def MachineV1.wfP (m : MachineV1) : Prop :=
  1 ≤ m.states.length ∧ m.states.length ≤ STATEMAXV1 ∧
  ∀ s ∈ m.states, s.wfP m.states.length

theorem wfB_to_wfP {m : MachineV1} (h : m.wfB = true) : m.wfP := by
  unfold MachineV1.wfB at h
  simp only [Bool.and_eq_true, decide_eq_true_eq, List.all_eq_true] at h
  refine ⟨h.1.1.1.1.1.1, h.1.1.1.1.1.2, ?_⟩
  intro s hs p hp
  have hv := h.2 s hs
  unfold StateV1.validB at hv
  simp only [Bool.and_eq_true, decide_eq_true_eq, List.all_eq_true] at hv
  exact ((hv.2 p hp).1).1.1

/-- A runtime is either ended or points at a real state of its machine. -/
def rtInv (m : MachineV1) (rt : MachineRuntime) : Prop :=
  rt.current_state = STATEEND ∨ rt.current_state < m.states.length

/-- The framework invariant: the bookkeeping vectors are parallel to the
machine vector, machines are well-formed, and every runtime is valid. -/
def Framework.Inv (f : Framework) : Prop :=
  f.runtime.length = f.machines.length ∧
  f.actions.length = f.machines.length ∧
  (∀ m ∈ f.machines, m.wfP) ∧
  ∀ (i : Nat) (m : MachineV1) (rt : MachineRuntime),
    f.machines[i]? = some m → f.runtime[i]? = some rt → rtInv m rt

theorem findRow_mem {l : List (EventV1 × List ℚ)} {ev : EventV1} {row : List ℚ}
    (h : findRow l ev = some row) : ∃ p ∈ l, p.2 = row := by
  induction l with
  | nil => simp [findRow] at h
  | cons hd tl ih =>
    unfold findRow at h
    split at h
    · exact ⟨hd, List.mem_cons_self _ _, by injection h⟩
    · obtain ⟨p, hp, hrow⟩ := ih h
      exact ⟨p, List.mem_cons_of_mem _ hp, hrow⟩

theorem nsLoop_range (len : Nat) (p : ℚ) :
    ∀ (row : List ℚ) (total : ℚ) (i j : Nat),
      nsLoop len p row total i = (j, true) →
      j = STATECANCEL ∨ j = STATEEND ∨ j + 2 < len := by
  intro row
  induction row with
  | nil =>
    intro total i j h
    simp [nsLoop] at h
  | cons x rest ih =>
    intro total i j h
    rw [nsLoop] at h
    by_cases hle : p ≤ total + x
    · rw [if_pos hle] at h
      by_cases hlt : i + 2 < len
      · rw [if_pos hlt] at h
        injection h with h1 _
        right; right
        omega
      · rw [if_neg hlt] at h
        by_cases heq : i + 2 = len
        · rw [if_pos heq] at h
          injection h with h1 _
          exact Or.inl h1.symm
        · rw [if_neg heq] at h
          injection h with h1 _
          exact Or.inr (Or.inl h1.symm)
    · rw [if_neg hle] at h
      exact ih _ _ _ h

/-- A sampled next state is a sentinel or a valid state index. -/
theorem nextStateFn_range {s : StateV1} {ev : EventV1} {r r' : List ℚ} {num next : Nat}
    (hwf : s.wfP num) (h : nextStateFn s ev r = ((next, true), r')) :
    next = STATECANCEL ∨ next = STATEEND ∨ next < num := by
  unfold nextStateFn at h
  cases hrow : findRow s.next_state ev with
  | none =>
    rw [hrow] at h
    simp at h
  | some row =>
    rw [hrow] at h
    obtain ⟨pr, hpr, hrowlen⟩ := findRow_mem hrow
    have hlen : row.length = num + 2 := by
      rw [← hrowlen]
      exact hwf pr hpr
    injection h with h1 _
    rcases nsLoop_range row.length ((drawQ r).1) row 0 0 next h1 with hc | hc | hc
    · exact Or.inl hc
    · exact Or.inr (Or.inl hc)
    · right; right
      omega
/-- Frame conditions for `transition`: machines untouched, vector lengths
preserved, other machines' runtimes and pending actions untouched, and an
`Unchanged` result leaves the whole runtime vector untouched. -/
theorem transition_frame {f : Framework} {mi : Nat} {ev : EventV1} {n : Nat}
    {f' : Framework} {sc : StateChange} (h : f.transition mi ev n = some (f', sc)) :
    f'.machines = f.machines ∧
    f'.runtime.length = f.runtime.length ∧
    f'.actions.length = f.actions.length ∧
    (∀ j : Nat, j ≠ mi → f'.runtime[j]? = f.runtime[j]?) ∧
    (∀ j : Nat, j ≠ mi → f'.actions[j]? = f.actions[j]?) ∧
    (sc = StateChange.unchanged → f'.runtime = f.runtime) := by
  unfold Framework.transition at h
  rw [Option.bind_eq_some] at h
  obtain ⟨machine, hm, h⟩ := h
  rw [Option.bind_eq_some] at h
  obtain ⟨rt, hrt, h⟩ := h
  split at h
  · injection h with hpair
    injection hpair with hf hsc
    subst hf; subst hsc
    exact ⟨rfl, rfl, rfl, fun j _ => rfl, fun j _ => rfl, fun _ => rfl⟩
  split at h
  · injection h with hpair
    injection hpair with hf hsc
    subst hf; subst hsc
    exact ⟨rfl, rfl, rfl, fun j _ => rfl, fun j _ => rfl, fun _ => rfl⟩
  rw [Option.bind_eq_some] at h
  obtain ⟨curState, hcs, h⟩ := h
  dsimp only [] at h
  split at h
  · injection h with hpair
    injection hpair with hf hsc
    subst hf; subst hsc
    exact ⟨rfl, rfl, rfl, fun j _ => rfl, fun j _ => rfl, fun _ => rfl⟩
  split at h
  · injection h with hpair
    injection hpair with hf hsc
    subst hf; subst hsc
    refine ⟨rfl, rfl, by simp, fun j _ => rfl, fun j hj => ?_, fun _ => rfl⟩
    exact List.getElem?_set_ne hj.symm
  split at h
  · injection h with hpair
    injection hpair with hf hsc
    subst hf; subst hsc
    refine ⟨rfl, by simp, rfl, fun j hj => ?_, fun j _ => rfl, fun hsc => by cases hsc⟩
    exact List.getElem?_set_ne hj.symm
  split at h
  · split at h
    · injection h with hpair
      injection hpair with hf hsc
      subst hf; subst hsc
      refine ⟨rfl, rfl, by simp, fun j _ => rfl, fun j hj => ?_, fun _ => rfl⟩
      exact List.getElem?_set_ne hj.symm
    · injection h with hpair
      injection hpair with hf hsc
      subst hf; subst hsc
      exact ⟨rfl, rfl, rfl, fun j _ => rfl, fun j _ => rfl, fun _ => rfl⟩
  rw [Option.bind_eq_some] at h
  obtain ⟨nextState, hns, h⟩ := h
  split at h
  · injection h with hpair
    injection hpair with hf hsc
    subst hf; subst hsc
    refine ⟨rfl, by simp, by simp, fun j hj => ?_, fun j hj => ?_, fun hsc => by cases hsc⟩
    · exact List.getElem?_set_ne hj.symm
    · exact List.getElem?_set_ne hj.symm
  · injection h with hpair
    injection hpair with hf hsc
    subst hf; subst hsc
    refine ⟨rfl, by simp, rfl, fun j hj => ?_, fun j _ => rfl, fun hsc => by cases hsc⟩
    exact List.getElem?_set_ne hj.symm

/-- A successful `transition` implies the machine and runtime lookups
succeeded. -/
theorem transition_some {f : Framework} {mi : Nat} {ev : EventV1} {n : Nat}
    {res : Framework × StateChange} (h : f.transition mi ev n = some res) :
    ∃ machine rt, f.machines[mi]? = some machine ∧ f.runtime[mi]? = some rt := by
  unfold Framework.transition at h
  rw [Option.bind_eq_some] at h
  obtain ⟨machine, hm, h⟩ := h
  rw [Option.bind_eq_some] at h
  obtain ⟨rt, hrt, h⟩ := h
  exact ⟨machine, rt, hm, hrt⟩

/-- A machine in the end state cannot transition: `transition` returns the
framework untouched and reports `Unchanged`. -/
theorem transition_end {f : Framework} {mi : Nat} {ev : EventV1} {n : Nat}
    {machine : MachineV1} {rt : MachineRuntime}
    (hm : f.machines[mi]? = some machine) (hrt : f.runtime[mi]? = some rt)
    (hend : rt.current_state = STATEEND) :
    f.transition mi ev n = some (f, StateChange.unchanged) := by
  unfold Framework.transition
  rw [hm, Option.some_bind, hrt, Option.some_bind, if_pos hend]

/-- After a `transition` on a well-formed machine, the runtime of the
transitioned machine keeps its state, ends, or points at a valid state. -/
theorem transition_state_valid {f : Framework} {mi : Nat} {ev : EventV1} {n : Nat}
    {f' : Framework} {sc : StateChange} {m : MachineV1} {rt : MachineRuntime}
    (hm : f.machines[mi]? = some m) (hwf : m.wfP) (hrt : f.runtime[mi]? = some rt)
    (h : f.transition mi ev n = some (f', sc)) {rt' : MachineRuntime}
    (hrt' : f'.runtime[mi]? = some rt') :
    rt'.current_state = rt.current_state ∨ rt'.current_state = STATEEND ∨
      rt'.current_state < m.states.length := by
  have hmiR : mi < f.runtime.length := (List.getElem?_eq_some.mp hrt).1
  unfold Framework.transition at h
  rw [hm, Option.some_bind, hrt, Option.some_bind] at h
  split at h
  · injection h with hp
    injection hp with hf _
    subst hf
    rw [hrt] at hrt'
    injection hrt' with e
    subst e
    exact Or.inl rfl
  split at h
  · injection h with hp
    injection hp with hf _
    subst hf
    rw [hrt] at hrt'
    injection hrt' with e
    subst e
    exact Or.inl rfl
  rw [Option.bind_eq_some] at h
  obtain ⟨curState, hcs, h⟩ := h
  dsimp only [] at h
  split at h
  · injection h with hp
    injection hp with hf _
    subst hf
    rw [hrt] at hrt'
    injection hrt' with e
    subst e
    exact Or.inl rfl
  split at h
  · injection h with hp
    injection hp with hf _
    subst hf
    rw [hrt] at hrt'
    injection hrt' with e
    subst e
    exact Or.inl rfl
  split at h
  · injection h with hp
    injection hp with hf _
    subst hf
    rw [List.getElem?_set_eq_of_lt _ hmiR] at hrt'
    injection hrt' with e
    subst e
    exact Or.inr (Or.inl rfl)
  split at h
  · split at h
    · injection h with hp
      injection hp with hf _
      subst hf
      rw [hrt] at hrt'
      injection hrt' with e
      subst e
      exact Or.inl rfl
    · injection h with hp
      injection hp with hf _
      subst hf
      rw [hrt] at hrt'
      injection hrt' with e
      subst e
      exact Or.inl rfl
  · rename_i hnotset hnc hne hnsame
    rw [Option.bind_eq_some] at h
    obtain ⟨nextState, hns, h⟩ := h
    have hset : (nextStateFn curState ev f.rng).1.2 = true := by
      by_contra hcon
      exact hnotset (by simpa using hcon)
    have heq : nextStateFn curState ev f.rng =
        (((nextStateFn curState ev f.rng).1.1, true), (nextStateFn curState ev f.rng).2) := by
      rw [← hset]
    have hrange := nextStateFn_range (hwf.2.2 curState (List.getElem?_mem hcs)) heq
    have hlt : (nextStateFn curState ev f.rng).1.1 < m.states.length := by
      rcases hrange with hc | hc | hc
      · exact absurd hc hnc
      · exact absurd hc hne
      · exact hc
    split at h
    · injection h with hp
      injection hp with hf _
      subst hf
      rw [List.getElem?_set_eq_of_lt _ hmiR] at hrt'
      injection hrt' with e
      subst e
      exact Or.inr (Or.inr hlt)
    · injection h with hp
      injection hp with hf _
      subst hf
      rw [List.getElem?_set_eq_of_lt _ hmiR] at hrt'
      injection hrt' with e
      subst e
      exact Or.inr (Or.inr hlt)

/-- What one dispatch step preserves: the machine vector, the bookkeeping
vector lengths, and — for every machine already in the end state — its
ended state and its pending-action slot. -/
def Preserves (f f' : Framework) : Prop :=
  f'.machines = f.machines ∧
  f'.runtime.length = f.runtime.length ∧
  f'.actions.length = f.actions.length ∧
  ∀ (j : Nat) (rt : MachineRuntime), f.runtime[j]? = some rt →
    rt.current_state = STATEEND →
    ∃ rt', f'.runtime[j]? = some rt' ∧ rt'.current_state = STATEEND ∧
      f'.actions[j]? = f.actions[j]?

theorem preserves_refl {f : Framework} : Preserves f f :=
  ⟨rfl, rfl, rfl, fun _ rt hrt hend => ⟨rt, hrt, hend, rfl⟩⟩

theorem preserves_trans {f g h : Framework} (h1 : Preserves f g) (h2 : Preserves g h) :
    Preserves f h := by
  obtain ⟨m1, r1, a1, e1⟩ := h1
  obtain ⟨m2, r2, a2, e2⟩ := h2
  refine ⟨m2.trans m1, r2.trans r1, a2.trans a1, ?_⟩
  intro j rt hrt hend
  obtain ⟨rt', hrt', hend', hact'⟩ := e1 j rt hrt hend
  obtain ⟨rt'', hrt'', hend'', hact''⟩ := e2 j rt' hrt' hend'
  exact ⟨rt'', hrt'', hend'', hact''.trans hact'⟩

theorem transition_preserves {f f' : Framework} {sc : StateChange} {mi : Nat}
    {ev : EventV1} {n : Nat} (h : f.transition mi ev n = some (f', sc)) :
    Preserves f f' := by
  obtain ⟨fm, frl, fal, fr, fa, -⟩ := transition_frame h
  obtain ⟨machine, rt0, hm, hrt0⟩ := transition_some h
  refine ⟨fm, frl, fal, ?_⟩
  intro j rt hrt hend
  by_cases hj : j = mi
  · subst hj
    rw [hrt] at hrt0
    injection hrt0 with e
    subst e
    rw [transition_end hm hrt hend] at h
    injection h with hp
    injection hp with hf _
    subst hf
    exact ⟨rt, hrt, hend, rfl⟩
  · exact ⟨rt, (fr j hj).trans hrt, hend, fa j hj⟩

theorem transition_inv {f f' : Framework} {sc : StateChange} {mi : Nat}
    {ev : EventV1} {n : Nat} (hInv : f.Inv) (h : f.transition mi ev n = some (f', sc)) :
    f'.Inv := by
  obtain ⟨fm, frl, fal, fr, fa, -⟩ := transition_frame h
  obtain ⟨hlenR, hlenA, hwfs, hval⟩ := hInv
  refine ⟨by rw [frl, fm]; exact hlenR, by rw [fal, fm]; exact hlenA,
    by rw [fm]; exact hwfs, ?_⟩
  intro j m rt' hm' hrt'
  rw [fm] at hm'
  by_cases hj : j = mi
  · subst hj
    obtain ⟨machine, rt0, hm0, hrt0⟩ := transition_some h
    rw [hm0] at hm'
    injection hm' with e
    subst e
    have hwfm := hwfs machine (List.getElem?_mem hm0)
    rcases transition_state_valid hm0 hwfm hrt0 h hrt' with hc | hc | hc
    · rcases hval j machine rt0 hm0 hrt0 with hv | hv
      · exact Or.inl (hc.trans hv)
      · exact Or.inr (hc ▸ hv)
    · exact Or.inl hc
    · exact Or.inr hc
  · rw [fr j hj] at hrt'
    exact hval j m rt' hm' hrt'

/-- A valid state index is not the `STATE_END` sentinel. -/
theorem wfP_state_ne_end {m : MachineV1} (hwf : m.wfP) {i : Nat}
    (hi : i < m.states.length) : i ≠ STATEEND := by
  have h1 := hwf.2.1
  intro e
  subst e
  simp only [STATEMAXV1, STATEEND] at h1 hi
  omega

/-- Replacing one runtime entry with an entry in the same state preserves
everything the dispatch loops need. -/
theorem update_rt_good {f : Framework} {mi : Nat} {rt rtN : MachineRuntime}
    (hrt : f.runtime[mi]? = some rt) (hcs : rtN.current_state = rt.current_state)
    (hInv : f.Inv) :
    Preserves f ({ f with runtime := f.runtime.set mi rtN }) ∧
      ({ f with runtime := f.runtime.set mi rtN } : Framework).Inv := by
  obtain ⟨hlenR, hlenA, hwfs, hval⟩ := hInv
  have hmiR : mi < f.runtime.length := (List.getElem?_eq_some.mp hrt).1
  constructor
  · refine ⟨rfl, by simp, rfl, ?_⟩
    intro j rtj hrtj hend
    by_cases hj : j = mi
    · refine ⟨rtN, ?_, ?_, rfl⟩
      · have : (f.runtime.set mi rtN)[mi]? = some rtN := List.getElem?_set_eq_of_lt rtN hmiR
        rw [hj]
        exact this
      · rw [hj] at hrtj
        rw [hrtj] at hrt
        injection hrt with e
        rw [hcs, ← e]
        exact hend
    · exact ⟨rtj, (List.getElem?_set_ne (Ne.symm hj)).trans hrtj, hend, rfl⟩
  · refine ⟨by simp [hlenR], hlenA, hwfs, ?_⟩
    intro j m rtj hm hrtj
    by_cases hj : j = mi
    · rw [hj] at hrtj hm
      have hrtj' : (f.runtime.set mi rtN)[mi]? = some rtj := hrtj
      rw [List.getElem?_set_eq_of_lt rtN hmiR] at hrtj'
      injection hrtj' with e
      rcases hval mi m rt hm hrt with hv | hv
      · exact Or.inl (by rw [← e, hcs]; exact hv)
      · exact Or.inr (by rw [← e, hcs]; exact hv)
    · have hrtj' : f.runtime[j]? = some rtj :=
        (List.getElem?_set_ne (Ne.symm hj)).symm.trans hrtj
      exact hval j m rtj hm hrtj'

/-- `decrement_limit` preserves the invariant and everything ended
machines need, whenever it does not panic. -/
theorem decrementLimit_good {f f' : Framework} {mi : Nat}
    (hInv : f.Inv) (h : f.decrementLimit mi = some f') :
    Preserves f f' ∧ f'.Inv := by
  unfold Framework.decrementLimit at h
  rw [Option.bind_eq_some] at h
  obtain ⟨rt, hrt, h⟩ := h
  dsimp only [] at h
  have hmiR' : mi < f.runtime.length := (List.getElem?_eq_some.mp hrt).1
  have hcs1 : (decLimit rt).current_state = rt.current_state := by
    unfold decLimit
    by_cases h0 : 0 < rt.state_limit <;> simp [h0]
  obtain ⟨pf1, hInv1⟩ := update_rt_good hrt hcs1 hInv
  split at h
  · rw [Option.bind_eq_some] at h
    obtain ⟨machine, hm, h⟩ := h
    rw [Option.bind_eq_some] at h
    obtain ⟨st, hst, h⟩ := h
    have hm' : f.machines[mi]? = some machine := hm
    have hlt : (decLimit rt).current_state < machine.states.length :=
      (List.getElem?_eq_some.mp hst).1
    have hnend : rt.current_state ≠ STATEEND := by
      have hwfm := hInv.2.2.1 machine (List.getElem?_mem hm')
      have hne := wfP_state_ne_end hwfm hlt
      rw [hcs1] at hne
      exact hne
    split at h
    · rw [Option.map_eq_some'] at h
      obtain ⟨⟨fT, scT⟩, htrans, hfT⟩ := h
      subst hfT
      have pf2 : Preserves ({ f with runtime := f.runtime.set mi (decLimit rt) } : Framework)
          ({ f with
             runtime := f.runtime.set mi (decLimit rt),
             actions := f.actions.set mi none } : Framework) := by
        refine ⟨rfl, rfl, by simp, ?_⟩
        intro j rtj hrtj hend
        by_cases hj : j = mi
        · rw [hj] at hrtj
          have hrtj' : (f.runtime.set mi (decLimit rt))[mi]? = some rtj := hrtj
          rw [List.getElem?_set_eq_of_lt _ hmiR'] at hrtj'
          injection hrtj' with e
          rw [← e, hcs1] at hend
          exact absurd hend hnend
        · exact ⟨rtj, hrtj, hend, List.getElem?_set_ne (Ne.symm hj)⟩
      have hInv2 : ({ f with
          runtime := f.runtime.set mi (decLimit rt),
          actions := f.actions.set mi none } : Framework).Inv := by
        obtain ⟨a, b, c, d⟩ := hInv1
        exact ⟨a, by simpa using b, c, d⟩
      exact ⟨preserves_trans pf1 (preserves_trans pf2 (transition_preserves htrans)),
        transition_inv hInv2 htrans⟩
    · injection h with e
      subst e
      exact ⟨pf1, hInv1⟩
  · injection h with e
    subst e
    exact ⟨pf1, hInv1⟩

theorem stepSimple_good {ev : EventV1} {n : Nat} {f f' : Framework} {mi : Nat}
    (hInv : f.Inv) (h : Framework.stepSimple ev n f mi = some f') :
    Preserves f f' ∧ f'.Inv := by
  unfold Framework.stepSimple at h
  rw [Option.map_eq_some'] at h
  obtain ⟨⟨fT, scT⟩, htrans, hfT⟩ := h
  subst hfT
  exact ⟨transition_preserves htrans, transition_inv hInv htrans⟩

theorem stepNonPaddingSent_good {n : Nat} {f f' : Framework} {mi : Nat}
    (hInv : f.Inv) (h : Framework.stepNonPaddingSent n f mi = some f') :
    Preserves f f' ∧ f'.Inv := by
  unfold Framework.stepNonPaddingSent at h
  rw [Option.bind_eq_some] at h
  obtain ⟨rt, hrt, h⟩ := h
  dsimp only [] at h
  obtain ⟨pf1, hInv1⟩ :=
    @update_rt_good _ _ _ { rt with nonpadding_sent := rt.nonpadding_sent + n } hrt rfl hInv
  rw [Option.bind_eq_some] at h
  obtain ⟨res, htrans, h⟩ := h
  have p2 := @transition_preserves _ res.1 res.2 _ _ _ htrans
  have hi2 := @transition_inv _ res.1 res.2 _ _ _ hInv1 htrans
  split at h
  · rw [Option.bind_eq_some] at h
    obtain ⟨rt2, hrt2, h⟩ := h
    split at h
    · rw [Option.bind_eq_some] at h
      obtain ⟨m2, hm2, h⟩ := h
      rw [Option.bind_eq_some] at h
      obtain ⟨st, hst, h⟩ := h
      split at h
      · obtain ⟨p3, hi3⟩ := decrementLimit_good hi2 h
        exact ⟨preserves_trans pf1 (preserves_trans p2 p3), hi3⟩
      · injection h with e
        subst e
        exact ⟨preserves_trans pf1 p2, hi2⟩
    · injection h with e
      subst e
      exact ⟨preserves_trans pf1 p2, hi2⟩
  · injection h with e
    subst e
    exact ⟨preserves_trans pf1 p2, hi2⟩

theorem stepPaddingSent_good {n machine : Nat} {f f' : Framework} {mi : Nat}
    (hInv : f.Inv) (h : Framework.stepPaddingSent n machine f mi = some f') :
    Preserves f f' ∧ f'.Inv := by
  unfold Framework.stepPaddingSent at h
  split at h
  · rw [Option.bind_eq_some] at h
    obtain ⟨rt, hrt, h⟩ := h
    dsimp only [] at h
    obtain ⟨pf1, hInv1⟩ :=
      @update_rt_good _ _ _ { rt with padding_sent := rt.padding_sent + n } hrt rfl hInv
    rw [Option.bind_eq_some] at h
    obtain ⟨res, htrans, h⟩ := h
    have p2 := @transition_preserves _ res.1 res.2 _ _ _ htrans
    have hi2 := @transition_inv _ res.1 res.2 _ _ _ hInv1 htrans
    split at h
    · obtain ⟨p3, hi3⟩ := decrementLimit_good hi2 h
      exact ⟨preserves_trans pf1 (preserves_trans p2 p3), hi3⟩
    · injection h with e
      subst e
      exact ⟨preserves_trans pf1 p2, hi2⟩
  · injection h with e
    subst e
    exact ⟨preserves_refl, hInv⟩

theorem stepBlockingBegin_good {machine : Nat} {f f' : Framework} {mi : Nat}
    (hInv : f.Inv) (h : Framework.stepBlockingBegin machine f mi = some f') :
    Preserves f f' ∧ f'.Inv := by
  unfold Framework.stepBlockingBegin at h
  rw [Option.bind_eq_some] at h
  obtain ⟨res, htrans, h⟩ := h
  have p2 := @transition_preserves _ res.1 res.2 _ _ _ htrans
  have hi2 := @transition_inv _ res.1 res.2 _ _ _ hInv htrans
  split at h
  · obtain ⟨p3, hi3⟩ := decrementLimit_good hi2 h
    exact ⟨preserves_trans p2 p3, hi3⟩
  · injection h with e
    subst e
    exact ⟨p2, hi2⟩

theorem stepBlockingEnd_good {blocked : Nat} {f f' : Framework} {mi : Nat}
    (hInv : f.Inv) (h : Framework.stepBlockingEnd blocked f mi = some f') :
    Preserves f f' ∧ f'.Inv := by
  unfold Framework.stepBlockingEnd at h
  rw [Option.bind_eq_some] at h
  obtain ⟨rt, hrt, h⟩ := h
  dsimp only [] at h
  split at h
  · obtain ⟨pf1, hInv1⟩ :=
      @update_rt_good _ _ _
        { rt with blocking_duration := rt.blocking_duration + blocked } hrt rfl hInv
    rw [Option.map_eq_some'] at h
    obtain ⟨⟨fT, scT⟩, htrans, hfT⟩ := h
    subst hfT
    exact ⟨preserves_trans pf1 (transition_preserves htrans), transition_inv hInv1 htrans⟩
  · rw [Option.map_eq_some'] at h
    obtain ⟨⟨fT, scT⟩, htrans, hfT⟩ := h
    subst hfT
    exact ⟨transition_preserves htrans, transition_inv hInv htrans⟩

theorem loopMachines_good {body : Framework → Nat → Option Framework}
    (hbody : ∀ (g : Framework) (mi : Nat) (g' : Framework),
      g.Inv → body g mi = some g' → Preserves g g' ∧ g'.Inv) :
    ∀ (idx : List Nat) (f f' : Framework), f.Inv →
      loopMachines body idx f = some f' → Preserves f f' ∧ f'.Inv := by
  intro idx
  induction idx with
  | nil =>
    intro f f' hInv h
    injection h with e
    subst e
    exact ⟨preserves_refl, hInv⟩
  | cons mi rest ih =>
    intro f f' hInv h
    unfold loopMachines at h
    rw [Option.bind_eq_some] at h
    obtain ⟨g, hg, h⟩ := h
    obtain ⟨p1, hi1⟩ := hbody f mi g hInv hg
    obtain ⟨p2, hi2⟩ := ih g f' hi1 h
    exact ⟨preserves_trans p1 p2, hi2⟩

/-- A record update that leaves `machines`, `runtime` and `actions`
untouched is invisible to `Preserves` and `Inv`.  Stated for the exact
global-accounting updates `process_event` performs. -/
theorem processEvent_good {f f' : Framework} {e : TriggerEventV1}
    (hInv : f.Inv) (h : f.processEvent e = some f') : Preserves f f' ∧ f'.Inv := by
  have triv : ∀ g g' : Framework, g.machines = g'.machines → g.runtime = g'.runtime →
      g.actions = g'.actions → g.Inv → Preserves g g' ∧ g'.Inv := by
    intro g g' h1 h2 h3 hi
    constructor
    · exact ⟨h1.symm, by rw [h2], by rw [h3],
        fun j rt hrt hend => ⟨rt, by rw [← h2]; exact hrt, hend, by rw [← h3]⟩⟩
    · obtain ⟨a, b, c, d⟩ := hi
      refine ⟨by rw [← h1, ← h2]; exact a, by rw [← h1, ← h3]; exact b,
        by rw [← h1]; exact c, ?_⟩
      intro j m rt hm hrt
      rw [← h1] at hm
      rw [← h2] at hrt
      exact d j m rt hm hrt
  cases e with
  | nonPaddingRecv n =>
    exact loopMachines_good (fun g mi g' hg hb => stepSimple_good hg hb) _ _ _ hInv h
  | paddingRecv n =>
    exact loopMachines_good (fun g mi g' hg hb => stepSimple_good hg hb) _ _ _ hInv h
  | nonPaddingSent n =>
    unfold Framework.processEvent at h
    dsimp only [] at h
    obtain ⟨pt, hi1⟩ := triv f
      ({ f with global_nonpadding_sent_bytes := f.global_nonpadding_sent_bytes + n })
      rfl rfl rfl hInv
    obtain ⟨p, hi⟩ :=
      loopMachines_good (fun g mi g' hg hb => stepNonPaddingSent_good hg hb) _ _ _ hi1 h
    exact ⟨preserves_trans pt p, hi⟩
  | paddingSent n machine =>
    unfold Framework.processEvent at h
    dsimp only [] at h
    obtain ⟨pt, hi1⟩ := triv f
      ({ f with global_paddingsent_bytes := f.global_paddingsent_bytes + n })
      rfl rfl rfl hInv
    obtain ⟨p, hi⟩ :=
      loopMachines_good (fun g mi g' hg hb => stepPaddingSent_good hg hb) _ _ _ hi1 h
    exact ⟨preserves_trans pt p, hi⟩
  | blockingBegin machine =>
    unfold Framework.processEvent at h
    dsimp only [] at h
    split at h
    · obtain ⟨pt, hi1⟩ := triv f
        ({ f with global_blocking_active := true, global_blocking_started := f.current_time })
        rfl rfl rfl hInv
      obtain ⟨p, hi⟩ :=
        loopMachines_good (fun g mi g' hg hb => stepBlockingBegin_good hg hb) _ _ _ hi1 h
      exact ⟨preserves_trans pt p, hi⟩
    · obtain ⟨p, hi⟩ :=
        loopMachines_good (fun g mi g' hg hb => stepBlockingBegin_good hg hb) _ _ _ hInv h
      exact ⟨p, hi⟩
  | blockingEnd =>
    unfold Framework.processEvent at h
    dsimp only [] at h
    split at h
    · obtain ⟨pt, hi1⟩ := triv f
        ({ f with
           global_blocking_duration :=
             f.global_blocking_duration + (f.current_time - f.global_blocking_started),
           global_blocking_active := false })
        rfl rfl rfl hInv
      obtain ⟨p, hi⟩ :=
        loopMachines_good (fun g mi g' hg hb => stepBlockingEnd_good hg hb) _ _ _ hi1 h
      exact ⟨preserves_trans pt p, hi⟩
    · obtain ⟨p, hi⟩ :=
        loopMachines_good (fun g mi g' hg hb => stepBlockingEnd_good hg hb) _ _ _ hInv h
      exact ⟨p, hi⟩
  | limitReached machine =>
    unfold Framework.processEvent at h
    dsimp only [] at h
    rw [Option.map_eq_some'] at h
    obtain ⟨⟨fT, scT⟩, htrans, hfT⟩ := h
    subst hfT
    exact ⟨transition_preserves htrans, transition_inv hInv htrans⟩
  | updateMTU n =>
    unfold Framework.processEvent at h
    dsimp only [] at h
    obtain ⟨pt, hi1⟩ := triv f ({ f with mtu := n }) rfl rfl rfl hInv
    obtain ⟨p, hi⟩ :=
      loopMachines_good (fun g mi g' hg hb => stepSimple_good hg hb) _ _ _ hi1 h
    exact ⟨preserves_trans pt p, hi⟩

theorem foldlM_processEvent_good :
    ∀ (events : List TriggerEventV1) (f f' : Framework), f.Inv →
      events.foldlM Framework.processEvent f = some f' →
      Preserves f f' ∧ f'.Inv := by
  intro events
  induction events with
  | nil =>
    intro f f' hInv h
    injection h with e
    subst e
    exact ⟨preserves_refl, hInv⟩
  | cons e rest ih =>
    intro f f' hInv h
    rw [List.foldlM_cons] at h
    rcases hg : f.processEvent e with _ | g
    · rw [hg] at h
      exact absurd h (by simp)
    · rw [hg] at h
      have h' : List.foldlM Framework.processEvent g rest = some f' := h
      obtain ⟨p1, hi1⟩ := processEvent_good hInv hg
      obtain ⟨p2, hi2⟩ := ih g f' hi1 h'
      exact ⟨preserves_trans p1 p2, hi2⟩

/-- `Framework::new` establishes the framework invariant. -/
theorem new_inv {machines : List MachineV1} {mp mb : ℚ} {mtu now : Nat}
    {rng : List ℚ} {f : Framework}
    (h : Framework.new machines mp mb mtu now rng = some f) : f.Inv := by
  unfold Framework.new at h
  split at h
  · exact absurd h (by simp)
  split at h
  · exact absurd h (by simp)
  split at h
  · exact absurd h (by simp)
  rename_i hwf h1 h2
  injection h with e
  subst e
  refine ⟨by simp, by simp, ?_, ?_⟩
  · intro m hm
    have : machines.all MachineV1.wfB = true := by
      by_contra hc
      exact hwf (by simpa using hc)
    exact wfB_to_wfP (by
      rw [List.all_eq_true] at this
      exact this m hm)
  · intro i m rt hm hrt
    have hi : i < machines.length := (List.getElem?_eq_some.mp hm).1
    have hrepl : (List.replicate machines.length (freshRuntime now))[i]? =
        some (freshRuntime now) := by
      simp [List.getElem?_replicate, hi]
    rw [hrepl] at hrt
    injection hrt with e
    subst e
    right
    have hall : machines.all MachineV1.wfB = true := by
      by_contra hc
      exact hwf (by simpa using hc)
    rw [List.all_eq_true] at hall
    have hwfm := wfB_to_wfP (hall m (List.getElem?_mem hm))
    exact Nat.lt_of_lt_of_le Nat.zero_lt_one hwfm.1

/-- The `exF` fixture satisfies the framework invariant. -/
theorem exF_inv : exF.Inv := by
  refine ⟨rfl, rfl, ?_, ?_⟩
  · intro m hm
    have : m = exM := by simpa [exF] using hm
    subst this
    exact wfB_to_wfP exM_wfB
  · intro i m rt hm hrt
    match i with
    | 0 =>
      have h1 : exM = m := by simpa [exF] using hm
      have h2 : exRtZero = rt := by simpa [exF] using hrt
      subst h1
      subst h2
      right
      decide
    | Nat.succ k =>
      have : ([exM] : List MachineV1)[Nat.succ k]? = none := by simp
      rw [show exF.machines = [exM] from rfl] at hm
      rw [this] at hm
      cases hm

/-! ### C4 -/

/-- C4: over any `trigger_events` call on an invariant-satisfying
framework, every machine's `current_state` stays either `STATE_END` or a
valid state index; and a machine already in `STATE_END` stays there, with
its pending-action slot still empty at the end of the call ( so no action
is emitted for it). -/
theorem triggerEvents_state_invariant {f : Framework} {evs : List TriggerEventV1}
    {now : Nat} {f' : Framework} (hInv : f.Inv)
    (h : f.triggerEvents evs now = some f') :
    f'.Inv ∧
    (∀ (mi : Nat) (m : MachineV1) (rt : MachineRuntime),
      f'.machines[mi]? = some m → f'.runtime[mi]? = some rt →
      rt.current_state = STATEEND ∨ rt.current_state < m.states.length) ∧
    ∀ (mi : Nat) (rt : MachineRuntime), f.runtime[mi]? = some rt →
      rt.current_state = STATEEND →
      ∃ rt', f'.runtime[mi]? = some rt' ∧ rt'.current_state = STATEEND ∧
        f'.actions[mi]? = some none := by
  unfold Framework.triggerEvents at h
  dsimp only [] at h
  have hInv1 : ({ f with
      actions := List.replicate f.actions.length none,
      current_time := now } : Framework).Inv := by
    obtain ⟨a, b, c, d⟩ := hInv
    exact ⟨a, by simpa using b, c, d⟩
  obtain ⟨⟨pm, pr, pa, pe⟩, hi⟩ := foldlM_processEvent_good evs _ f' hInv1 h
  refine ⟨hi, ?_, ?_⟩
  · intro mi m rt hm hrt
    exact hi.2.2.2 mi m rt hm hrt
  · intro mi rt hrt hend
    obtain ⟨rt', hrt', hend', hact⟩ := pe mi rt hrt hend
    refine ⟨rt', hrt', hend', ?_⟩
    rw [hact]
    have hlt : mi < f.actions.length := by
      have := (List.getElem?_eq_some.mp hrt).1
      rw [hInv.1, ← hInv.2.1] at this
      exact this
    simp [List.getElem?_replicate, hlt]

/-- C4 witness: the theorem applied to the ping-pong fixture on a
one-event batch. -/
theorem triggerEvents_state_invariant_witness :
    ∃ f', exF.triggerEvents [TriggerEventV1.paddingRecv 0] 5 = some f' ∧
      (f'.Inv ∧
      (∀ (mi : Nat) (m : MachineV1) (rt : MachineRuntime),
        f'.machines[mi]? = some m → f'.runtime[mi]? = some rt →
        rt.current_state = STATEEND ∨ rt.current_state < m.states.length) ∧
      ∀ (mi : Nat) (rt : MachineRuntime), exF.runtime[mi]? = some rt →
        rt.current_state = STATEEND →
        ∃ rt', f'.runtime[mi]? = some rt' ∧ rt'.current_state = STATEEND ∧
          f'.actions[mi]? = some none) := by
  cases htr : exF.triggerEvents [TriggerEventV1.paddingRecv 0] 5 with
  | none =>
    have hs : (exF.triggerEvents [TriggerEventV1.paddingRecv 0] 5).isSome = true := by decide
    rw [htr] at hs
    cases hs
  | some g => exact ⟨g, rfl, triggerEvents_state_invariant exF_inv htr⟩

/-! ### C5 -/

/-- C5: a single `trigger_events` call emits at most one action per
machine: the scratch has exactly one slot per machine (reset at the start
of the call and only overwritten in place), and only non-empty slots are
returned, so the number of emitted actions is at most the number of
machines. -/
theorem triggerEvents_at_most_one_action_per_machine {f : Framework}
    {evs : List TriggerEventV1} {now : Nat} {f' : Framework}
    (hInv : f.Inv) (h : f.triggerEvents evs now = some f') :
    f'.machines = f.machines ∧
    f'.actions.length = f'.machines.length ∧
    f'.emittedActions.length ≤ f'.machines.length := by
  unfold Framework.triggerEvents at h
  dsimp only [] at h
  have hInv1 : ({ f with
      actions := List.replicate f.actions.length none,
      current_time := now } : Framework).Inv := by
    obtain ⟨a, b, c, d⟩ := hInv
    exact ⟨a, by simpa using b, c, d⟩
  obtain ⟨⟨pm, pr, pa, pe⟩, hi⟩ := foldlM_processEvent_good evs _ f' hInv1 h
  refine ⟨pm, hi.2.1, ?_⟩
  calc f'.emittedActions.length ≤ f'.actions.length := List.length_filterMap_le id f'.actions
  _ = f'.machines.length := hi.2.1

/-- C5 witness: the theorem applied to the ping-pong fixture on a
two-event batch. -/
theorem triggerEvents_at_most_one_action_per_machine_witness :
    ∃ f', exF.triggerEvents
        [TriggerEventV1.paddingRecv 0, TriggerEventV1.blockingEnd] 5 = some f' ∧
      (f'.machines = exF.machines ∧
       f'.actions.length = f'.machines.length ∧
       f'.emittedActions.length ≤ f'.machines.length) := by
  cases htr : exF.triggerEvents [TriggerEventV1.paddingRecv 0, TriggerEventV1.blockingEnd] 5 with
  | none =>
    have hs : (exF.triggerEvents
        [TriggerEventV1.paddingRecv 0, TriggerEventV1.blockingEnd] 5).isSome = true := by decide
    rw [htr] at hs
    cases hs
  | some g => exact ⟨g, rfl, triggerEvents_at_most_one_action_per_machine exF_inv htr⟩

/-- `decLimit` keeps the current state. -/
theorem decLimit_current_state (rt : MachineRuntime) :
    (decLimit rt).current_state = rt.current_state := by
  unfold decLimit
  by_cases h0 : 0 < rt.state_limit <;> simp [h0]

/-- `decLimit` is exactly a saturating decrement of the state limit. -/
theorem decLimit_state_limit (rt : MachineRuntime) :
    (decLimit rt).state_limit = rt.state_limit - 1 := by
  unfold decLimit
  by_cases h0 : 0 < rt.state_limit
  · simp [h0]
  · simp [h0]
    omega

/-- If a `transition` leaves the machine in the state it was in (and that
state is not the end sentinel), the state limit is not resampled. -/
theorem transition_same_state {f : Framework} {mi : Nat} {ev : EventV1} {n : Nat}
    {f' : Framework} {sc : StateChange} {rt : MachineRuntime}
    (hrt : f.runtime[mi]? = some rt) (hne : rt.current_state ≠ STATEEND)
    (h : f.transition mi ev n = some (f', sc)) {rt' : MachineRuntime}
    (hrt' : f'.runtime[mi]? = some rt')
    (hsame : rt'.current_state = rt.current_state) :
    rt'.state_limit = rt.state_limit := by
  have hmiR : mi < f.runtime.length := (List.getElem?_eq_some.mp hrt).1
  unfold Framework.transition at h
  rw [Option.bind_eq_some] at h
  obtain ⟨machine, hm, h⟩ := h
  rw [hrt, Option.some_bind] at h
  split at h
  · injection h with hp
    injection hp with hf _
    subst hf
    rw [hrt] at hrt'
    injection hrt' with e
    subst e
    rfl
  split at h
  · injection h with hp
    injection hp with hf _
    subst hf
    rw [hrt] at hrt'
    injection hrt' with e
    subst e
    rfl
  rw [Option.bind_eq_some] at h
  obtain ⟨curState, hcs, h⟩ := h
  dsimp only [] at h
  split at h
  · injection h with hp
    injection hp with hf _
    subst hf
    rw [hrt] at hrt'
    injection hrt' with e
    subst e
    rfl
  split at h
  · injection h with hp
    injection hp with hf _
    subst hf
    rw [hrt] at hrt'
    injection hrt' with e
    subst e
    rfl
  split at h
  · injection h with hp
    injection hp with hf _
    subst hf
    rw [List.getElem?_set_eq_of_lt _ hmiR] at hrt'
    injection hrt' with e
    subst e
    exact absurd hsame.symm hne
  split at h
  · split at h
    · injection h with hp
      injection hp with hf _
      subst hf
      rw [hrt] at hrt'
      injection hrt' with e
      subst e
      rfl
    · injection h with hp
      injection hp with hf _
      subst hf
      rw [hrt] at hrt'
      injection hrt' with e
      subst e
      rfl
  · rename_i hnotset hnc hnend hnsame
    rw [Option.bind_eq_some] at h
    obtain ⟨nextState, hns, h⟩ := h
    split at h
    · injection h with hp
      injection hp with hf _
      subst hf
      rw [List.getElem?_set_eq_of_lt _ hmiR] at hrt'
      injection hrt' with e
      subst e
      exact absurd hsame.symm hnsame
    · injection h with hp
      injection hp with hf _
      subst hf
      rw [List.getElem?_set_eq_of_lt _ hmiR] at hrt'
      injection hrt' with e
      subst e
      exact absurd hsame.symm hnsame

/-! ### C6 -/

/-- C6 (corrected): `decrement_limit` saturatingly decrements the state
limit; when the decremented limit is zero and the current state declares a
limit distribution, it clears the pending action and dispatches a
`LimitReached` event; after that dispatch, the state limit is 0 whenever
the dispatch did not move the machine to a different state — but a
`LimitReached` transition to a different state resamples `state_limit`
from the new state's limit distribution, so it need not be 0 in general. -/
theorem decrementLimit_spec {f : Framework} {mi : Nat} {rt : MachineRuntime}
    {m : MachineV1} {st : StateV1}
    (hrt : f.runtime[mi]? = some rt) (hm : f.machines[mi]? = some m)
    (hwf : m.wfP) (hst : m.states[rt.current_state]? = some st) :
    ((decLimit rt).state_limit = rt.state_limit - 1) ∧
    ((decLimit rt).state_limit ≠ 0 ∨ st.limit.dist = DistTypeV1.dnone →
      f.decrementLimit mi =
        some ({ f with runtime := f.runtime.set mi (decLimit rt) })) ∧
    ((decLimit rt).state_limit = 0 → st.limit.dist ≠ DistTypeV1.dnone →
      f.decrementLimit mi =
        (({ f with
            runtime := f.runtime.set mi (decLimit rt),
            actions := f.actions.set mi none } : Framework).transition
          mi .limitReached 0).map (·.1)) ∧
    (∀ (f' : Framework) (rt' : MachineRuntime),
      (decLimit rt).state_limit = 0 → st.limit.dist ≠ DistTypeV1.dnone →
      f.decrementLimit mi = some f' → f'.runtime[mi]? = some rt' →
      rt'.current_state = rt.current_state → rt'.state_limit = 0) := by
  have hmiR : mi < f.runtime.length := (List.getElem?_eq_some.mp hrt).1
  have hcs := decLimit_current_state rt
  have hstD : m.states[(decLimit rt).current_state]? = some st := by
    rw [hcs]
    exact hst
  have hne : rt.current_state ≠ STATEEND :=
    wfP_state_ne_end hwf (List.getElem?_eq_some.mp hst).1
  refine ⟨decLimit_state_limit rt, ?_, ?_, ?_⟩
  · intro hside
    unfold Framework.decrementLimit
    rw [hrt, Option.some_bind]
    dsimp only []
    rcases hside with hnz | hdn
    · rw [if_neg hnz]
    · by_cases hz : (decLimit rt).state_limit = 0
      · rw [if_pos hz, hm, Option.some_bind, hstD, Option.some_bind, if_neg (by simp [hdn])]
      · rw [if_neg hz]
  · intro hz hdist
    unfold Framework.decrementLimit
    rw [hrt, Option.some_bind]
    dsimp only []
    rw [if_pos hz, hm, Option.some_bind, hstD, Option.some_bind, if_pos hdist]
  · intro f' rt' hz hdist hdec hrt' hsame
    unfold Framework.decrementLimit at hdec
    rw [hrt, Option.some_bind] at hdec
    dsimp only [] at hdec
    rw [if_pos hz, hm, Option.some_bind, hstD, Option.some_bind, if_pos hdist,
      Option.map_eq_some'] at hdec
    obtain ⟨⟨fT, scT⟩, htrans, hfT⟩ := hdec
    subst hfT
    have hrt2 : ({ f with
        runtime := f.runtime.set mi (decLimit rt),
        actions := f.actions.set mi none } : Framework).runtime[mi]? =
        some (decLimit rt) := List.getElem?_set_eq_of_lt _ hmiR
    have hne2 : (decLimit rt).current_state ≠ STATEEND := by
      rw [hcs]
      exact hne
    have := transition_same_state hrt2 hne2 htrans hrt' (by rw [hsame, hcs])
    rw [this, hz]

/-- C6 witness: the amended theorem applied at a concrete runtime with
`state_limit = 2` on the ping-pong fixture (no dispatch fires). -/
theorem decrementLimit_spec_witness :
    (decLimit { exRtZero with state_limit := 2 }).state_limit =
        ({ exRtZero with state_limit := 2 } : MachineRuntime).state_limit - 1 ∧
    ({ exF with runtime := [{ exRtZero with state_limit := 2 }] } : Framework).decrementLimit 0 =
      some ({ { exF with runtime := [{ exRtZero with state_limit := 2 }] } with
        runtime := ([{ exRtZero with state_limit := 2 }] : List MachineRuntime).set 0
          (decLimit { exRtZero with state_limit := 2 }) }) := by
  have h := @decrementLimit_spec
    { exF with runtime := [{ exRtZero with state_limit := 2 }] }
    0 { exRtZero with state_limit := 2 } exM exS0
    rfl rfl (wfB_to_wfP exM_wfB) rfl
  exact ⟨h.1, h.2.1 (Or.inl (by decide))⟩

/-- State 0 for the C6 counterexample: declares a limit distribution and
transitions to state 1 on `LimitReached`. -/
def c6S0 : StateV1 :=
  { dfltStateV1 with
    limit := uQ 1,
    next_state := [(.limitReached, [0, 1, 0, 0])] }

/-- The C6 counterexample machine: state 1 has no limit distribution, so
entering it on `LimitReached` sets the maximal state limit. -/
def c6M : MachineV1 :=
  { allowed_padding_bytes := 5, max_padding_frac := 0,
    allowed_blocked_microsec := 0, max_blocking_frac := 0,
    states := [c6S0, dfltStateV1], include_small_packets := true }

/-- The C6 counterexample framework: one machine in state 0 with one
transition left on its limit. -/
def c6F : Framework :=
  { exF with
    machines := [c6M],
    runtime := [{ exRtZero with state_limit := 1 }],
    rng := [0.6] }

set_option maxHeartbeats 2000000 in
/-- C6 counterexample: the claim's "leaving `state_limit == 0` afterwards"
is false.  Here `decrement_limit` hits 0, dispatches `LimitReached`, the
machine transitions to state 1, and `state_limit` is resampled to the
maximal limit, which is nonzero. -/
theorem decrementLimit_can_leave_nonzero_limit :
    (c6F.runtime.getD 0 exRtZero).state_limit = 1 ∧
    (c6M.states.getD 0 dfltStateV1).limit.dist ≠ DistTypeV1.dnone ∧
    ∃ f' rt', c6F.decrementLimit 0 = some f' ∧ f'.runtime[0]? = some rt' ∧
      rt'.state_limit ≠ 0 := by
  refine ⟨rfl, by decide, ?_⟩
  have ha : ¬ (0.6 : ℚ) ≤ 0 := by norm_num
  have hb : (0.6 : ℚ) ≤ 1 := by norm_num
  simp [c6F, c6M, c6S0, exF, exM, exRtZero, dfltStateV1, dnoneDist, uQ, ha, hb,
    Framework.decrementLimit, decLimit, Framework.transition, nextStateFn, findRow, nsLoop,
    drawQ, StateV1.sampleLimit, DistV1.sampleQ, Framework.belowActionLimits,
    Framework.belowLimitPadding, Framework.belowLimitBlocking, fracGe,
    Framework.scheduleAction, StateV1.sampleTimeout, StateV1.sampleSize, StateV1.sampleBlock,
    MAXSAMPLEDTIMEOUT, MAXSAMPLEDBLOCK, STATELIMITMAX, STATEEND, STATECANCEL, STATENOP,
    MAXSMALLPACKETSIZE, exS0, exS1]

/-!
### The v2 machine (`machine.rs`, `state.rs`, `action.rs`)

The second part embeds machine construction and validation from the v2
sources under `src/`: `Machine::validate`, `State::validate` and
`Action::validate`.  `f32`/`f64` values are again `ℚ`.  The distribution
and counter types live in files not under `src/` and are modelled from the
spec.
-/

/-- The v2 events, in declared enum order (spec §3; v2 `event.rs` is not
under `src/`). -/
inductive EventV2 where
  | normalRecv
  | normalSent
  | paddingRecv
  | paddingSent
  | tunnelRecv
  | tunnelSent
  | blockingBegin
  | blockingEnd
  | limitReached
  | counterZero
  | timerBegin
  | timerEnd
  | updateMTU
deriving DecidableEq, Repr

/-- Modelled from the spec: `Event::to_usize`, the declared enum order. -/
def EventV2.toUsize : EventV2 → Nat
  | .normalRecv => 0
  | .normalSent => 1
  | .paddingRecv => 2
  | .paddingSent => 3
  | .tunnelRecv => 4
  | .tunnelSent => 5
  | .blockingBegin => 6
  | .blockingEnd => 7
  | .limitReached => 8
  | .counterZero => 9
  | .timerBegin => 10
  | .timerEnd => 11
  | .updateMTU => 12

/-- Modelled from the spec: the v2 distribution families (§3; `dist.rs` is
not under `src/`). -/
inductive DistTypeV2 where
  | uniform (low : ℚ) (high : ℚ)
  | normal (mean : ℚ) (stdev : ℚ)
deriving DecidableEq, Repr

/-- Modelled from the spec: a distribution with an additive `start` and an
upper clamp `max`. -/
structure DistV2 where
  dist : DistTypeV2
  start : ℚ
  max : ℚ
deriving DecidableEq, Repr

/-- Modelled from the spec: `Dist::validate` rejects inverted ranges and
negative standard deviations. -/
def DistV2.validate (d : DistV2) : Except String Unit :=
  match d.dist with
  | .uniform low high => if high < low then .error "uniform low greater than high" else .ok ()
  | .normal _ stdev => if stdev < 0 then .error "normal stdev negative" else .ok ()

/-- The timers of v2 `action.rs`. -/
inductive TimerV2 where
  | action
  | machine
  | all
deriving DecidableEq, Repr

/-- The v2 actions (`Action` in `action.rs`). -/
inductive ActionV2 where
  | cancel (timer : TimerV2)
  | sendPadding (bypass : Bool) (replace : Bool) (timeout : DistV2) (limit : Option DistV2)
  | blockOutgoing (bypass : Bool) (replace : Bool) (timeout : DistV2) (duration : DistV2)
      (limit : Option DistV2)
  | updateTimer (replace : Bool) (duration : DistV2) (limit : Option DistV2)
deriving DecidableEq, Repr

/-- `if limit.is_some() { limit.unwrap().validate()? }`. -/
def validateOptDist : Option DistV2 → Except String Unit
  | none => .ok ()
  | some d => d.validate

/-- `Action::validate` from `action.rs`. -/
def ActionV2.validate : ActionV2 → Except String Unit
  | .cancel _ => .ok ()
  | .sendPadding _ _ timeout limit =>
    match timeout.validate with
    | .error e => .error e
    | .ok () => validateOptDist limit
  | .blockOutgoing _ _ timeout duration limit =>
    match timeout.validate with
    | .error e => .error e
    | .ok () =>
      match duration.validate with
      | .error e => .error e
      | .ok () => validateOptDist limit
  | .updateTimer _ duration limit =>
    match duration.validate with
    | .error e => .error e
    | .ok () => validateOptDist limit

/-- Modelled from the spec: a counter operation (§3; `counter.rs` is not
under `src/`). -/
inductive CounterOp where
  | increment
  | decrement
deriving DecidableEq, Repr

/-- Modelled from the spec: a counter update carrying an optional
distribution for the amount. -/
structure CounterUpdate where
  op : CounterOp
  value : Option DistV2
deriving DecidableEq, Repr

/-- Modelled from the spec: `CounterUpdate::validate` validates the
distribution it contains. -/
def CounterUpdate.validate (c : CounterUpdate) : Except String Unit :=
  validateOptDist c.value

/-- `Trans(usize, f32)` from `state.rs`. -/
structure TransV2 where
  target : Nat
  prob : ℚ
deriving DecidableEq, Repr

/-- A v2 state (`State` in `state.rs`): optional action and counter update
plus one optional transition vector per event. -/
structure StateV2 where
  action : Option ActionV2
  counter : Option CounterUpdate
  transitions : List (Option (List TransV2))
deriving DecidableEq, Repr

/-- Modelled from the spec: `STATE_MAX` of the v2 `constants.rs`. -/
def STATEMAXV2 : Nat := 500

/-- The inner loop of `State::validate` over one transition vector,
carrying the `seen` set and the probability sum. -/
def checkTransList (num : Nat) : List TransV2 → List Nat → ℚ → Except String ℚ
  | [], _, sum => .ok sum
  | t :: rest, seen, sum =>
    if num ≤ t.target ∧ t.target ≠ STATECANCEL ∧ t.target ≠ STATEEND then
      .error "found invalid state index"
    else if t.target ∈ seen then
      .error "found duplicate state index"
    else if t.prob ≤ 0 ∨ 1 < t.prob then
      .error "found probability out of range"
    else
      checkTransList num rest (t.target :: seen) (sum + t.prob)

/-- One iteration of `State::validate`'s outer loop: skip absent vectors,
keep the (dead) emptiness check of the outer array, check every transition
and the probability sum. -/
def checkRow (num : Nat) (outerEmpty : Bool) : Option (List TransV2) → Except String Unit
  | none => .ok ()
  | some v =>
    if outerEmpty then .error "found empty transition vector"
    else
      match checkTransList num v [] 0 with
      | .error e => .error e
      | .ok sum => if sum ≤ 0 ∨ 1 < sum then .error "invalid total probability" else .ok ()

/-- The outer loop of `State::validate`. -/
def validateRows (num : Nat) (outerEmpty : Bool) : List (Option (List TransV2)) →
    Except String Unit
  | [] => .ok ()
  | row :: rest =>
    match checkRow num outerEmpty row with
    | .error e => .error e
    | .ok () => validateRows num outerEmpty rest

/-- `State::validate` from `state.rs`. -/
def StateV2.validate (s : StateV2) (num : Nat) : Except String Unit :=
  match validateRows num s.transitions.isEmpty s.transitions with
  | .error e => .error e
  | .ok () =>
    match (match s.action with | some a => a.validate | none => .ok ()) with
    | .error e => .error e
    | .ok () =>
      match s.counter with
      | some c => c.validate
      | none => .ok ()

/-- A v2 machine (`Machine` in `machine.rs`).  The `StateWrapper`
indirection only caches sampling data, so states are kept directly. -/
structure MachineV2 where
  allowed_padding_packets : Nat
  max_padding_frac : ℚ
  allowed_blocked_microsec : Nat
  max_blocking_frac : ℚ
  states : List StateV2
deriving DecidableEq, Repr

/-- The per-state loop of `Machine::validate`. -/
def validateStates (num : Nat) : List StateV2 → Except String Unit
  | [] => .ok ()
  | s :: rest =>
    match s.validate num with
    | .error e => .error e
    | .ok () => validateStates num rest

/-- `Machine::validate` from `machine.rs`. -/
def MachineV2.validate (m : MachineV2) : Except String Unit :=
  if m.max_padding_frac < 0 ∨ 1 < m.max_padding_frac then
    .error "max_padding_frac out of range"
  else if m.max_blocking_frac < 0 ∨ 1 < m.max_blocking_frac then
    .error "max_blocking_frac out of range"
  else if m.states.length = 0 then
    .error "a machine must have at least one state"
  else if STATEMAXV2 < m.states.length then
    .error "too many states"
  else
    validateStates m.states.length m.states

/-! #### The spec-side validity predicate (C7's wording) -/

/-- Spec wording: a distribution is valid when its range is not inverted
and its standard deviation is not negative. -/
def DistV2.IsValid (d : DistV2) : Prop :=
  match d.dist with
  | .uniform low high => low ≤ high
  | .normal _ stdev => 0 ≤ stdev

/-- Spec wording: every distribution inside the action is valid. -/
def ActionV2.IsValid : ActionV2 → Prop
  | .cancel _ => True
  | .sendPadding _ _ timeout limit =>
    timeout.IsValid ∧ ∀ l, limit = some l → l.IsValid
  | .blockOutgoing _ _ timeout duration limit =>
    timeout.IsValid ∧ duration.IsValid ∧ ∀ l, limit = some l → l.IsValid
  | .updateTimer _ duration limit =>
    duration.IsValid ∧ ∀ l, limit = some l → l.IsValid

/-- Spec wording: the distribution inside a counter update is valid. -/
def CounterUpdate.IsValid (c : CounterUpdate) : Prop :=
  ∀ l, c.value = some l → l.IsValid

/-- Spec wording: a transition target is a valid state index or one of the
two sentinels. -/
def TransTargetOk (num : Nat) (t : TransV2) : Prop :=
  t.target < num ∨ t.target = STATECANCEL ∨ t.target = STATEEND

/-- Spec wording for one event's transition vector: targets valid, no
duplicate targets, each probability in `(0,1]`, and the sum in `(0,1]`. -/
def RowOk (num : Nat) (v : List TransV2) : Prop :=
  (∀ t ∈ v, TransTargetOk num t ∧ 0 < t.prob ∧ t.prob ≤ 1) ∧
  (v.map TransV2.target).Nodup ∧
  0 < (v.map TransV2.prob).sum ∧ (v.map TransV2.prob).sum ≤ 1

/-- Spec wording for a state: every present transition vector is valid and
the distributions inside the action and counter validate. -/
def StateV2.IsValid (num : Nat) (s : StateV2) : Prop :=
  (∀ row ∈ s.transitions, ∀ v, row = some v → RowOk num v) ∧
  (∀ a, s.action = some a → a.IsValid) ∧
  (∀ c, s.counter = some c → c.IsValid)

/-- Spec wording for a machine, following C7: fractions in `[0,1]`, state
count in `[1, STATE_MAX]`, and every state valid. -/
def MachineV2.StructurallyValid (m : MachineV2) : Prop :=
  0 ≤ m.max_padding_frac ∧ m.max_padding_frac ≤ 1 ∧
  0 ≤ m.max_blocking_frac ∧ m.max_blocking_frac ≤ 1 ∧
  1 ≤ m.states.length ∧ m.states.length ≤ STATEMAXV2 ∧
  ∀ s ∈ m.states, s.IsValid m.states.length

theorem distValidate_ok_iff {d : DistV2} : d.validate = .ok () ↔ d.IsValid := by
  obtain ⟨dd, ds, dm⟩ := d
  cases dd with
  | uniform low high =>
    constructor
    · intro hok
      simp only [DistV2.validate] at hok
      split_ifs at hok with h
      exact not_lt.mp h
    · intro hv
      have hv' : low ≤ high := hv
      simp [DistV2.validate, not_lt.mpr hv']
  | normal mean stdev =>
    constructor
    · intro hok
      simp only [DistV2.validate] at hok
      split_ifs at hok with h
      exact not_lt.mp h
    · intro hv
      have hv' : (0 : ℚ) ≤ stdev := hv
      simp [DistV2.validate, not_lt.mpr hv']

theorem validateOptDist_ok_iff {o : Option DistV2} :
    validateOptDist o = .ok () ↔ ∀ l, o = some l → l.IsValid := by
  cases o with
  | none => simp [validateOptDist]
  | some d => simp [validateOptDist, distValidate_ok_iff]

theorem actionValidate_ok_iff {a : ActionV2} : a.validate = .ok () ↔ a.IsValid := by
  cases a with
  | cancel t => simp [ActionV2.validate, ActionV2.IsValid]
  | sendPadding b r timeout limit =>
    cases hv : timeout.validate with
    | error e =>
      simp only [ActionV2.validate, hv, ActionV2.IsValid]
      constructor
      · intro hc
        cases hc
      · rintro ⟨hval, -⟩
        rw [distValidate_ok_iff.mpr hval] at hv
        cases hv
    | ok u =>
      cases u
      simp only [ActionV2.validate, hv, ActionV2.IsValid]
      rw [validateOptDist_ok_iff]
      have hval : timeout.IsValid := distValidate_ok_iff.mp hv
      simp [hval]
  | blockOutgoing b r timeout duration limit =>
    cases hv : timeout.validate with
    | error e =>
      simp only [ActionV2.validate, hv, ActionV2.IsValid]
      constructor
      · intro hc
        cases hc
      · rintro ⟨hval, -⟩
        rw [distValidate_ok_iff.mpr hval] at hv
        cases hv
    | ok u =>
      cases u
      cases hd : duration.validate with
      | error e =>
        simp only [ActionV2.validate, hv, hd, ActionV2.IsValid]
        constructor
        · intro hc
          cases hc
        · rintro ⟨-, hval, -⟩
          rw [distValidate_ok_iff.mpr hval] at hd
          cases hd
      | ok u =>
        cases u
        simp only [ActionV2.validate, hv, hd, ActionV2.IsValid]
        rw [validateOptDist_ok_iff]
        have h1 : timeout.IsValid := distValidate_ok_iff.mp hv
        have h2 : duration.IsValid := distValidate_ok_iff.mp hd
        simp [h1, h2]
  | updateTimer r duration limit =>
    cases hd : duration.validate with
    | error e =>
      simp only [ActionV2.validate, hd, ActionV2.IsValid]
      constructor
      · intro hc
        cases hc
      · rintro ⟨hval, -⟩
        rw [distValidate_ok_iff.mpr hval] at hd
        cases hd
    | ok u =>
      cases u
      simp only [ActionV2.validate, hd, ActionV2.IsValid]
      rw [validateOptDist_ok_iff]
      have h1 : duration.IsValid := distValidate_ok_iff.mp hd
      simp [h1]

theorem counterValidate_ok_iff {c : CounterUpdate} :
    c.validate = .ok () ↔ c.IsValid := by
  unfold CounterUpdate.validate CounterUpdate.IsValid
  exact validateOptDist_ok_iff

theorem checkTransList_ok_sum (num : Nat) :
    ∀ (v : List TransV2) (seen : List Nat) (acc s : ℚ),
      checkTransList num v seen acc = .ok s → s = acc + (v.map TransV2.prob).sum := by
  intro v
  induction v with
  | nil =>
    intro seen acc s h
    unfold checkTransList at h
    injection h with e
    subst e
    simp
  | cons t rest ih =>
    intro seen acc s h
    unfold checkTransList at h
    split_ifs at h with h1 h2 h3
    have := ih (t.target :: seen) (acc + t.prob) s h
    rw [this]
    simp
    ring

theorem checkTransList_ok_iff (num : Nat) :
    ∀ (v : List TransV2) (seen : List Nat) (acc : ℚ),
      (∃ s, checkTransList num v seen acc = .ok s) ↔
        ((∀ t ∈ v, TransTargetOk num t ∧ 0 < t.prob ∧ t.prob ≤ 1) ∧
         (v.map TransV2.target).Nodup ∧
         ∀ x ∈ v.map TransV2.target, x ∉ seen) := by
  intro v
  induction v with
  | nil =>
    intro seen acc
    simp [checkTransList]
  | cons t rest ih =>
    intro seen acc
    unfold checkTransList
    constructor
    · rintro ⟨s, hs⟩
      split_ifs at hs with h1 h2 h3
      obtain ⟨hall, hnd, hnin⟩ := (ih (t.target :: seen) (acc + t.prob)).mp ⟨s, hs⟩
      push_neg at h3
      refine ⟨?_, ?_, ?_⟩
      · intro u hu
        rcases List.mem_cons.mp hu with h | h
        · subst h
          refine ⟨?_, h3.1, h3.2⟩
          by_cases hlt : u.target < num
          · exact Or.inl hlt
          · by_cases hcan : u.target = STATECANCEL
            · exact Or.inr (Or.inl hcan)
            · by_cases hend : u.target = STATEEND
              · exact Or.inr (Or.inr hend)
              · exact absurd ⟨not_lt.mp hlt, hcan, hend⟩ h1
        · exact hall u h
      · rw [List.map_cons, List.nodup_cons]
        refine ⟨?_, hnd⟩
        intro hc
        exact hnin t.target hc (List.mem_cons_self _ _)
      · intro x hx
        rw [List.map_cons] at hx
        rcases List.mem_cons.mp hx with h | h
        · subst h
          exact h2
        · intro hc
          exact hnin x h (List.mem_cons_of_mem _ hc)
    · rintro ⟨hall, hnd, hnin⟩
      have ht := hall t (List.mem_cons_self _ _)
      have ht1 : t.target < num ∨ t.target = STATECANCEL ∨ t.target = STATEEND := ht.1
      have h1 : ¬ (num ≤ t.target ∧ t.target ≠ STATECANCEL ∧ t.target ≠ STATEEND) := by
        rintro ⟨ha, hb, hc⟩
        rcases ht1 with hd | hd | hd
        · exact absurd hd (not_lt.mpr ha)
        · exact hb hd
        · exact hc hd
      have h2 : t.target ∉ seen := by
        apply hnin t.target
        rw [List.map_cons]
        exact List.mem_cons_self _ _
      have h3 : ¬ (t.prob ≤ 0 ∨ 1 < t.prob) := by
        push_neg
        exact ⟨ht.2.1, ht.2.2⟩
      rw [if_neg h1, if_neg h2, if_neg h3]
      have hnd' : (rest.map TransV2.target).Nodup ∧
          t.target ∉ rest.map TransV2.target := by
        rw [List.map_cons, List.nodup_cons] at hnd
        exact ⟨hnd.2, hnd.1⟩
      apply (ih (t.target :: seen) (acc + t.prob)).mpr
      refine ⟨fun u hu => hall u (List.mem_cons_of_mem _ hu), hnd'.1, ?_⟩
      intro x hx hc
      rcases List.mem_cons.mp hc with h | h
      · subst h
        exact hnd'.2 hx
      · apply hnin x ?_ h
        rw [List.map_cons]
        exact List.mem_cons_of_mem _ hx

theorem checkRow_ok_iff (num : Nat) (row : Option (List TransV2)) :
    checkRow num false row = .ok () ↔ ∀ v, row = some v → RowOk num v := by
  cases row with
  | none => simp [checkRow]
  | some v =>
    cases hc : checkTransList num v [] 0 with
    | error e =>
      simp only [checkRow, if_neg Bool.false_ne_true, hc]
      constructor
      · intro hcon
        cases hcon
      · intro hro
        obtain ⟨hall, hnd, hs0, hs1⟩ := hro v rfl
        obtain ⟨s, hs⟩ := (checkTransList_ok_iff num v [] 0).mpr ⟨hall, hnd, by simp⟩
        rw [hs] at hc
        cases hc
    | ok s =>
      simp only [checkRow, if_neg Bool.false_ne_true, hc]
      have hsum := checkTransList_ok_sum num v [] 0 s hc
      simp only [zero_add] at hsum
      subst hsum
      obtain ⟨hall, hnd, -⟩ := (checkTransList_ok_iff num v [] 0).mp ⟨_, hc⟩
      by_cases hbad : (v.map TransV2.prob).sum ≤ 0 ∨ 1 < (v.map TransV2.prob).sum
      · rw [if_pos hbad]
        constructor
        · intro hcon
          cases hcon
        · intro hro
          obtain ⟨-, -, hs0, hs1⟩ := hro v rfl
          rcases hbad with hb | hb
          · exact absurd hs0 (not_lt.mpr hb)
          · exact absurd hs1 (not_le.mpr hb)
      · rw [if_neg hbad]
        push_neg at hbad
        constructor
        · rintro - u hu
          injection hu with e
          subst e
          exact ⟨hall, hnd, hbad.1, hbad.2⟩
        · intro h
          rfl

theorem validateRows_ok_iff (num : Nat) :
    ∀ rows : List (Option (List TransV2)),
      validateRows num false rows = .ok () ↔
        ∀ row ∈ rows, ∀ v, row = some v → RowOk num v := by
  intro rows
  induction rows with
  | nil => simp [validateRows]
  | cons row rest ih =>
    unfold validateRows
    cases hr : checkRow num false row with
    | error e =>
      constructor
      · intro hcon
        cases hcon
      · intro hro
        have hok := (checkRow_ok_iff num row).mpr
          (fun v hv => hro row (List.mem_cons_self _ _) v hv)
        rw [hok] at hr
        cases hr
    | ok u =>
      cases u
      constructor
      · intro hrest r hrmem v hv
        rcases List.mem_cons.mp hrmem with h | h
        · subst h
          exact (checkRow_ok_iff num r).mp hr v hv
        · exact ih.mp hrest r h v hv
      · intro hro
        exact ih.mpr (fun r hrmem v hv => hro r (List.mem_cons_of_mem _ hrmem) v hv)

theorem stateValidate_ok_iff {s : StateV2} {num : Nat} :
    s.validate num = .ok () ↔ s.IsValid num := by
  obtain ⟨act, cnt, trans⟩ := s
  unfold StateV2.validate StateV2.IsValid
  cases trans with
  | nil =>
    simp only [List.isEmpty_nil, validateRows]
    cases act with
    | none =>
      cases cnt with
      | none => simp
      | some c => simp [counterValidate_ok_iff]
    | some a =>
      cases hv : a.validate with
      | error e =>
        simp only [hv]
        constructor
        · intro hcon
          cases hcon
        · rintro ⟨-, ha, -⟩
          rw [actionValidate_ok_iff.mpr (ha a rfl)] at hv
          cases hv
      | ok u =>
        cases u
        cases cnt with
        | none => simp [hv, actionValidate_ok_iff.mp hv]
        | some c => simp [hv, counterValidate_ok_iff, actionValidate_ok_iff.mp hv]
  | cons row rest =>
    simp only [List.isEmpty_cons]
    cases hrows : validateRows num false (row :: rest) with
    | error e =>
      simp only [hrows]
      constructor
      · intro hcon
        cases hcon
      · rintro ⟨hro, -, -⟩
        rw [(validateRows_ok_iff num (row :: rest)).mpr hro] at hrows
        cases hrows
    | ok u =>
      cases u
      simp only [hrows]
      have hro := (validateRows_ok_iff num (row :: rest)).mp hrows
      have hro1 : ∀ v, row = some v → RowOk num v :=
        fun v hv => hro row (List.mem_cons_self _ _) v hv
      have hro2 : ∀ r ∈ rest, ∀ v, r = some v → RowOk num v :=
        fun r hr v hv => hro r (List.mem_cons_of_mem _ hr) v hv
      cases act with
      | none =>
        cases cnt with
        | none =>
          simp
          exact ⟨hro1, hro2⟩
        | some c =>
          simp [counterValidate_ok_iff]
          exact fun hc => ⟨hro1, hro2⟩
      | some a =>
        cases hv : a.validate with
        | error e =>
          simp only [hv]
          constructor
          · intro hcon
            cases hcon
          · rintro ⟨-, ha, -⟩
            rw [actionValidate_ok_iff.mpr (ha a rfl)] at hv
            cases hv
        | ok u =>
          cases u
          cases cnt with
          | none =>
            simp [hv, actionValidate_ok_iff.mp hv]
            exact ⟨hro1, hro2⟩
          | some c =>
            simp [hv, counterValidate_ok_iff, actionValidate_ok_iff.mp hv]
            exact fun hc => ⟨hro1, hro2⟩

theorem validateStates_ok_iff (num : Nat) :
    ∀ states : List StateV2,
      validateStates num states = .ok () ↔ ∀ s ∈ states, s.IsValid num := by
  intro states
  induction states with
  | nil => simp [validateStates]
  | cons s rest ih =>
    unfold validateStates
    cases hv : s.validate num with
    | error e =>
      constructor
      · intro hcon
        cases hcon
      · intro hall
        rw [stateValidate_ok_iff.mpr (hall s (List.mem_cons_self _ _))] at hv
        cases hv
    | ok u =>
      cases u
      constructor
      · intro hrest s2 hs2
        rcases List.mem_cons.mp hs2 with h | h
        · subst h
          exact stateValidate_ok_iff.mp hv
        · exact ih.mp hrest s2 h
      · intro hall
        exact ih.mpr (fun s2 hs2 => hall s2 (List.mem_cons_of_mem _ hs2))

/-! ### C7 -/

/-- C7: `Machine::validate` succeeds exactly on structurally valid
machines: fractions in `[0,1]`, between 1 and `STATE_MAX` states, every
transition target a valid index or sentinel, no duplicate targets per
event, every probability and per-event probability sum in `(0,1]`, and
every distribution inside actions and counters valid. -/
theorem machineValidate_ok_iff (m : MachineV2) :
    m.validate = .ok () ↔ m.StructurallyValid := by
  unfold MachineV2.validate MachineV2.StructurallyValid
  by_cases h1 : m.max_padding_frac < 0 ∨ 1 < m.max_padding_frac
  · rw [if_pos h1]
    constructor
    · intro hcon
      cases hcon
    · rintro ⟨ha, hb, -⟩
      rcases h1 with hc | hc
      · exact absurd ha (not_le.mpr hc)
      · exact absurd hb (not_le.mpr hc)
  · rw [if_neg h1]
    push_neg at h1
    by_cases h2 : m.max_blocking_frac < 0 ∨ 1 < m.max_blocking_frac
    · rw [if_pos h2]
      constructor
      · intro hcon
        cases hcon
      · rintro ⟨-, -, ha, hb, -⟩
        rcases h2 with hc | hc
        · exact absurd ha (not_le.mpr hc)
        · exact absurd hb (not_le.mpr hc)
    · rw [if_neg h2]
      push_neg at h2
      by_cases h3 : m.states.length = 0
      · rw [if_pos h3]
        constructor
        · intro hcon
          cases hcon
        · rintro ⟨-, -, -, -, ha, -⟩
          omega
      · rw [if_neg h3]
        by_cases h4 : STATEMAXV2 < m.states.length
        · rw [if_pos h4]
          constructor
          · intro hcon
            cases hcon
          · rintro ⟨-, -, -, -, -, ha, -⟩
            omega
        · rw [if_neg h4]
          rw [validateStates_ok_iff]
          constructor
          · intro hall
            exact ⟨h1.1, h1.2, h2.1, h2.2, by omega, by omega, hall⟩
          · rintro ⟨-, -, -, -, -, -, hall⟩
            exact hall

/-! ### C8: serialization (`Machine::serialize` / `Machine::from_str`) -/

/-- Modelled from the spec: `VERSION` of the v2 `constants.rs` (the spec
leaves the value implementation-chosen; v2 of the wire format). -/
def VERSION : Nat := 2

/-- Modelled from the spec: `MAX_DECOMPRESSED_SIZE` of the v2
`constants.rs`, the decompression-bomb bound. -/
def MAXDECOMPRESSEDSIZE : Nat := 1048576

/-- Rendering of `format!("\x7b:02\x7d", VERSION)` for a version below 100:
two decimal digits. -/
def twoDigit (n : Nat) : List Char :=
  [Char.ofNat (48 + n / 10 % 10), Char.ofNat (48 + n % 10)]

/-- The external collaborators of `Machine::serialize` / `from_str`:
bincode (`enc`/`dec`), zlib (`zenc`/`zdec`) and base64 (`b64enc`/`b64dec`).
They are crates outside this repository, so the pipeline is parameterized
over them; bytes are `List Nat`. -/
structure Codec where
  enc : MachineV2 → List Nat
  dec : List Nat → Except String MachineV2
  zenc : List Nat → List Nat
  zdec : List Nat → Except String (List Nat)
  b64enc : List Nat → List Char
  b64dec : List Char → Except String (List Nat)

/-- `Machine::serialize` from `machine.rs`: version as first 2 characters,
then base64 of the zlib-compressed bincode encoding. -/
def MachineV2.serializeWith (c : Codec) (m : MachineV2) : List Char :=
  twoDigit VERSION ++ c.b64enc (c.zenc (c.enc m))

/-- `Machine::from_str` from `machine.rs`.  `none` is the panic of the
`.unwrap()` on base64 decoding; the single `read` into the
`MAX_DECOMPRESSED_SIZE` buffer truncates the decompressed bytes. -/
def machineFromStrWith (c : Codec) (s : List Char) :
    Option (Except String MachineV2) :=
  if s.length < 3 then some (.error "string too short")
  else if s.take 2 ≠ twoDigit VERSION then some (.error "version mismatch")
  else
    match c.b64dec (s.drop 2) with
    | .error _ => none
    | .ok compressed =>
      match c.zdec compressed with
      | .error e => some (.error e)
      | .ok buf => some (c.dec (buf.take MAXDECOMPRESSEDSIZE))

/-- C8: with the external codecs inverting each other on the machine's
encoding (bincode, zlib and base64 round-trip pointwise, the encoding fits
the decompression buffer, base64 output nonempty), `from_str` of
`serialize` returns the machine; the serialized form is the two-digit
decimal version followed by base64 of zlib of the binary encoding; and any
string whose first two characters are not the version tag is rejected with
an error. -/
theorem machineSerialize_roundtrip (c : Codec) (m : MachineV2) (s : List Char)
    (hb : c.dec (c.enc m) = .ok m)
    (hz : c.zdec (c.zenc (c.enc m)) = .ok (c.enc m))
    (h64 : c.b64dec (c.b64enc (c.zenc (c.enc m))) = .ok (c.zenc (c.enc m)))
    (hlen : (c.enc m).length ≤ MAXDECOMPRESSEDSIZE)
    (hne : c.b64enc (c.zenc (c.enc m)) ≠ [])
    (hpre : s.take 2 ≠ twoDigit VERSION) :
    machineFromStrWith c (m.serializeWith c) = some (.ok m) ∧
    m.serializeWith c = twoDigit VERSION ++ c.b64enc (c.zenc (c.enc m)) ∧
    ∃ e, machineFromStrWith c s = some (.error e) := by
  refine ⟨?_, rfl, ?_⟩
  · have hlen2 : (twoDigit VERSION).length = 2 := rfl
    have htake : (m.serializeWith c).take 2 = twoDigit VERSION := rfl
    have hdrop : (m.serializeWith c).drop 2 = c.b64enc (c.zenc (c.enc m)) := rfl
    have hlong : ¬ (m.serializeWith c).length < 3 := by
      unfold MachineV2.serializeWith
      rw [List.length_append, hlen2]
      have : 0 < (c.b64enc (c.zenc (c.enc m))).length :=
        List.length_pos.mpr hne
      omega
    unfold machineFromStrWith
    rw [if_neg hlong, htake, if_neg (by simp), hdrop]
    simp only [h64, hz, List.take_of_length_le hlen, hb]
  · unfold machineFromStrWith
    by_cases hshort : s.length < 3
    · rw [if_pos hshort]
      exact ⟨"string too short", rfl⟩
    · rw [if_neg hshort, if_pos hpre]
      exact ⟨"version mismatch", rfl⟩

/-- A one-state machine with empty transition rows, used as the concrete
round-trip input. -/
def exM2 : MachineV2 :=
  { allowed_padding_packets := 0
    max_padding_frac := 0
    allowed_blocked_microsec := 0
    max_blocking_frac := 0
    states := [{ action := none, counter := none, transitions := [none] }] }

/-- A concrete codec that satisfies the round-trip hypotheses at `exM2`. -/
def exCodec : Codec :=
  { enc := fun _ => [0]
    dec := fun l => if l = [0] then .ok exM2 else .error "bad bincode"
    zenc := fun l => l
    zdec := fun l => .ok l
    b64enc := fun _ => ['A']
    b64dec := fun l => if l = ['A'] then .ok [0] else .error "bad base64" }

theorem machineSerialize_roundtrip_witness :
    machineFromStrWith exCodec (exM2.serializeWith exCodec) = some (.ok exM2) ∧
    exM2.serializeWith exCodec =
      twoDigit VERSION ++ exCodec.b64enc (exCodec.zenc (exCodec.enc exM2)) ∧
    ∃ e, machineFromStrWith exCodec ['9', '9', 'x'] = some (.error e) :=
  machineSerialize_roundtrip exCodec exM2 ['9', '9', 'x']
    (by simp [exCodec]) (by simp [exCodec]) (by simp [exCodec])
    (by simp [exCodec, MAXDECOMPRESSEDSIZE]) (by simp [exCodec])
    (by decide)

/-! ### C9/C10: the simulator queue (`queue.rs`) -/

/-- Modelled from the spec: `SimEvent` (the struct lives in the simulator
`lib.rs`, which is not under `src/`).  The payload-free event kind stands
for `TriggerEvent`; only its `event_to_usize` rank matters to the queue. -/
structure SimEvent where
  event : EventV2
  time : Nat
  integration_delay : Nat
  client : Bool
  contains_padding : Bool
  bypass : Bool
  replace : Bool
  base_delay : Option Nat
deriving DecidableEq, Repr

/-- Ordering key of a `SimEvent`: `(time, event_to_usize)`.  The heap is a
max-heap under the reversed order, so the minimum key pops first. -/
def simKey (e : SimEvent) : Nat × Nat := (e.time, e.event.toUsize)

/-- Strict lexicographic order on keys (`SimEvent::cmp` before reversal). -/
def keyLt (a b : Nat × Nat) : Bool :=
  decide (a.1 < b.1 ∨ (a.1 = b.1 ∧ a.2 < b.2))

/-- `BinaryHeap::peek` on the reversed order: an element with minimal key
(`none` on an empty heap).  The heap is carried as its list of elements. -/
def heapPeek : List SimEvent → Option SimEvent
  | [] => none
  | x :: xs =>
    match heapPeek xs with
    | none => some x
    | some y => if keyLt (simKey y) (simKey x) then some y else some x

/-- `BinaryHeap::pop`: remove the element `peek` returns. -/
def heapPop (l : List SimEvent) : Option (SimEvent × List SimEvent) :=
  match heapPeek l with
  | none => none
  | some e => some (e, l.erase e)

/-- `Queue` from `queue.rs`. -/
inductive QueueTag where
  | blocking
  | bypassable
  | internal
  | base
deriving DecidableEq, Repr, Fintype

/-- `EventQueue` from `queue.rs`: four sub-heaps. -/
structure EventQueue where
  base : List SimEvent
  blocking : List SimEvent
  bypassable : List SimEvent
  internal : List SimEvent
deriving DecidableEq, Repr

/-- The sub-heap a tag names. -/
def EventQueue.heapOf (q : EventQueue) : QueueTag → List SimEvent
  | .blocking => q.blocking
  | .bypassable => q.bypassable
  | .internal => q.internal
  | .base => q.base

/-- `EventQueue::len`. -/
def EventQueue.len (q : EventQueue) : Nat :=
  q.blocking.length + q.bypassable.length + q.internal.length + q.base.length

/-- `EventQueue::push`. -/
def EventQueue.push (q : EventQueue) (item : SimEvent) : EventQueue :=
  match item.event with
  | .tunnelSent =>
    if item.bypass then { q with bypassable := item :: q.bypassable }
    else { q with blocking := item :: q.blocking }
  | .normalSent => { q with base := item :: q.base }
  | _ => { q with internal := item :: q.internal }

/-- Rust comparison `n > first` on `Option<&SimEvent>` under the reversed
`SimEvent` order: `Some > None`, and among `Some`s the strictly smaller
key wins. -/
def optEarlier : Option SimEvent → Option SimEvent → Bool
  | none, _ => false
  | some _, none => true
  | some a, some b => keyLt (simKey a) (simKey b)

/-- `before(a, b, a_network_delay_sum)` from `queue.rs`. -/
def beforeB : Option SimEvent → Option SimEvent → Nat → Bool
  | some a, some b, d =>
    keyLt (a.time + d, a.event.toUsize) (b.time, b.event.toUsize)
  | some _, none, _ => true
  | none, _, _ => false

/-- `Instant::duration_since`, saturating at zero. -/
def durSince (t now : Nat) : Nat := t - now

/-- One `if n > first` update step of `EventQueue::peek`. -/
def selEarlier (n : Option SimEvent) (t : QueueTag)
    (f : Option SimEvent × QueueTag) : Option SimEvent × QueueTag :=
  if optEarlier n f.1 then (n, t) else f

/-- Tail of `EventQueue::peek`: fold the base heap (whose effective time
carries the delay) into the non-base winner `f`, then compute the
`duration_since`.  The outer `Option` is the panic of `first.unwrap()`
(unreachable when `len ≠ 0`). -/
def peekCombine (base : List SimEvent) (f : Option SimEvent × QueueTag)
    (delay now : Nat) : Option (Option SimEvent × QueueTag × Nat) :=
  if beforeB (heapPeek base) f.1 delay then
    match heapPeek base with
    | some e => some (some e, .base, durSince (e.time + delay) now)
    | none => none
  else
    match f.1 with
    | some e => some (some e, f.2, durSince e.time now)
    | none => none

/-- `EventQueue::peek` from `queue.rs`. -/
def EventQueue.peek (q : EventQueue) (delay now : Nat) :
    Option (Option SimEvent × QueueTag × Nat) :=
  if q.len = 0 then some (none, .blocking, 0)
  else
    peekCombine q.base
      (selEarlier (heapPeek q.internal) .internal
        (selEarlier (heapPeek q.bypassable) .bypassable
          (heapPeek q.blocking, QueueTag.blocking))) delay now

/-- `EventQueue::pop` from `queue.rs`; `none` is the `.unwrap()` panic on
an empty base heap with a nonzero delay. -/
def EventQueue.pop (q : EventQueue) (tag : QueueTag) (delay : Nat) :
    Option (Option SimEvent × EventQueue) :=
  match tag with
  | .blocking =>
    match heapPop q.blocking with
    | none => some (none, q)
    | some (e, rest) => some (some e, { q with blocking := rest })
  | .bypassable =>
    match heapPop q.bypassable with
    | none => some (none, q)
    | some (e, rest) => some (some e, { q with bypassable := rest })
  | .internal =>
    match heapPop q.internal with
    | none => some (none, q)
    | some (e, rest) => some (some e, { q with internal := rest })
  | .base =>
    if delay = 0 then
      match heapPop q.base with
      | none => some (none, q)
      | some (e, rest) => some (some e, { q with base := rest })
    else
      match heapPop q.base with
      | none => none
      | some (e, rest) =>
        some (some { e with time := e.time + delay }, { q with base := rest })

/-- `SimQueue` from `queue.rs`. -/
structure SimQueue where
  client : EventQueue
  server : EventQueue
deriving DecidableEq, Repr

/-- `SimQueue::len`. -/
def SimQueue.len (s : SimQueue) : Nat := s.client.len + s.server.len

/-- The endpoint an `is_client` flag names. -/
def SimQueue.endpoint (s : SimQueue) : Bool → EventQueue
  | true => s.client
  | false => s.server

/-- `SimQueue::push_sim`. -/
def SimQueue.pushSim (s : SimQueue) (item : SimEvent) : SimQueue :=
  if item.client then { s with client := s.client.push item }
  else { s with server := s.server.push item }

/-- The `match (c, s)` arm of `SimQueue::peek`: combine the two endpoint
peeks by comparing their `duration_since` values, ties broken by event
rank. -/
def simCombine : Option SimEvent × QueueTag × Nat →
    Option SimEvent × QueueTag × Nat → Option SimEvent × QueueTag × Nat
  | (none, _, _), (some se, sq, sd) => (some se, sq, sd)
  | (some ce, cq, cd), (none, _, _) => (some ce, cq, cd)
  | (none, _, _), (none, _, _) => (none, .blocking, 0)
  | (some ce, cq, cd), (some se, sq, sd) =>
    if cd < sd ∨ (cd = sd ∧ ce.event.toUsize < se.event.toUsize) then
      (some ce, cq, cd)
    else
      (some se, sq, sd)

/-- `SimQueue::peek` from `queue.rs`. -/
def SimQueue.peek (s : SimQueue) (delay now : Nat) :
    Option (Option SimEvent × QueueTag × Nat) :=
  if s.len = 0 then some (none, .blocking, 0)
  else
    match s.client.peek delay now, s.server.peek delay now with
    | some c, some sv => some (simCombine c sv)
    | _, _ => none

/-- `SimQueue::pop` from `queue.rs`. -/
def SimQueue.pop (s : SimQueue) (tag : QueueTag) (isClient : Bool)
    (delay : Nat) : Option (Option SimEvent × SimQueue) :=
  match isClient with
  | true => (s.client.pop tag delay).map fun p => (p.1, { s with client := p.2 })
  | false => (s.server.pop tag delay).map fun p => (p.1, { s with server := p.2 })

/-- Effective ordering key of an event sitting in a given sub-heap: base
events carry the network delay sum. -/
def effKey (delay : Nat) : QueueTag → SimEvent → Nat × Nat
  | .base, e => (e.time + delay, e.event.toUsize)
  | .blocking, e => simKey e
  | .bypassable, e => simKey e
  | .internal, e => simKey e

theorem boolFalse {b : Bool} (h : ¬ b = true) : b = false := by
  cases b with
  | false => rfl
  | true => exact absurd rfl h

theorem keyLt_irrefl (a : Nat × Nat) : keyLt a a = false := by
  simp [keyLt]

theorem keyLt_trans {a b c : Nat × Nat} (h1 : keyLt a b = true)
    (h2 : keyLt b c = true) : keyLt a c = true := by
  simp only [keyLt, decide_eq_true_eq] at h1 h2 ⊢
  omega

theorem keyLt_asymm {a b : Nat × Nat} (h : keyLt a b = true) :
    keyLt b a = false := by
  simp only [keyLt, decide_eq_true_eq, decide_eq_false_iff_not] at h ⊢
  omega

theorem keyLt_neg_trans {a b c : Nat × Nat} (h1 : keyLt b a = false)
    (h2 : keyLt c b = false) : keyLt c a = false := by
  simp only [keyLt, decide_eq_false_iff_not] at h1 h2 ⊢
  omega

theorem keyLt_shift (a b : Nat × Nat) (d : Nat) :
    keyLt (a.1 + d, a.2) (b.1 + d, b.2) = keyLt a b := by
  simp only [keyLt, decide_eq_decide]
  omega

theorem effKey_rank (delay : Nat) (tag : QueueTag) (e : SimEvent) :
    (effKey delay tag e).2 = e.event.toUsize := by
  cases tag <;> rfl

theorem heapPeek_spec (l : List SimEvent) :
    (heapPeek l = none → l = []) ∧
    (∀ e, heapPeek l = some e →
      e ∈ l ∧ ∀ x ∈ l, keyLt (simKey x) (simKey e) = false) := by
  induction l with
  | nil => exact ⟨fun _ => rfl, fun e h => by cases h⟩
  | cons x xs ih =>
    constructor
    · intro h
      simp only [heapPeek] at h
      cases hp : heapPeek xs with
      | none => simp [hp] at h
      | some y =>
        simp only [hp] at h
        by_cases hk : keyLt (simKey y) (simKey x) = true
        · simp [hk] at h
        · simp [boolFalse hk] at h
    · intro e h
      simp only [heapPeek] at h
      cases hp : heapPeek xs with
      | none =>
        simp only [hp, Option.some.injEq] at h
        subst h
        have hxs : xs = [] := ih.1 hp
        subst hxs
        refine ⟨List.mem_cons_self _ _, ?_⟩
        intro z hz
        rcases List.mem_cons.mp hz with hz | hz
        · subst hz
          exact keyLt_irrefl _
        · cases hz
      | some y =>
        simp only [hp] at h
        obtain ⟨hymem, hymin⟩ := ih.2 y hp
        by_cases hk : keyLt (simKey y) (simKey x) = true
        · rw [if_pos hk] at h
          injection h with h
          subst h
          refine ⟨List.mem_cons_of_mem _ hymem, ?_⟩
          intro z hz
          rcases List.mem_cons.mp hz with hz | hz
          · subst hz
            exact keyLt_asymm hk
          · exact hymin z hz
        · rw [if_neg hk] at h
          injection h with h
          subst h
          have hk' : keyLt (simKey y) (simKey x) = false := boolFalse hk
          refine ⟨List.mem_cons_self _ _, ?_⟩
          intro z hz
          rcases List.mem_cons.mp hz with hz | hz
          · subst hz
            exact keyLt_irrefl _
          · exact keyLt_neg_trans hk' (hymin z hz)

theorem heapPeek_mem {l : List SimEvent} {e : SimEvent}
    (h : heapPeek l = some e) : e ∈ l :=
  ((heapPeek_spec l).2 e h).1

theorem heapPeek_min {l : List SimEvent} {e : SimEvent}
    (h : heapPeek l = some e) :
    ∀ x ∈ l, keyLt (simKey x) (simKey e) = false :=
  ((heapPeek_spec l).2 e h).2

/-- The per-heap minimality invariant carried along `EventQueue::peek`'s
chain of `if n > first` updates over the non-base sub-heaps. -/
def MinState (q : EventQueue) (tags : List QueueTag)
    (f : Option SimEvent × QueueTag) : Prop :=
  match f.1 with
  | none => ∀ t ∈ tags, q.heapOf t = []
  | some e => f.2 ∈ tags ∧ heapPeek (q.heapOf f.2) = some e ∧
      ∀ t ∈ tags, ∀ x ∈ q.heapOf t, keyLt (simKey x) (simKey e) = false

theorem minState_blocking (q : EventQueue) :
    MinState q [QueueTag.blocking] (heapPeek q.blocking, QueueTag.blocking) := by
  cases hp : heapPeek q.blocking with
  | none =>
    intro t ht
    rcases List.mem_cons.mp ht with h' | h'
    · subst h'
      exact (heapPeek_spec _).1 hp
    · cases h'
  | some e =>
    refine ⟨List.mem_cons_self _ _, hp, ?_⟩
    intro t ht x hx
    rcases List.mem_cons.mp ht with h' | h'
    · subst h'
      exact heapPeek_min hp x hx
    · cases h'

theorem selEarlier_minState {q : EventQueue} {tags : List QueueTag}
    (t : QueueTag) {f : Option SimEvent × QueueTag}
    (h : MinState q tags f) :
    MinState q (t :: tags) (selEarlier (heapPeek (q.heapOf t)) t f) := by
  obtain ⟨f1, f2⟩ := f
  cases hp : heapPeek (q.heapOf t) with
  | none =>
    have hte : q.heapOf t = [] := (heapPeek_spec _).1 hp
    have hsel : selEarlier none t (f1, f2) = (f1, f2) := by
      unfold selEarlier optEarlier
      simp
    rw [hsel]
    cases f1 with
    | none =>
      intro t2 ht2
      rcases List.mem_cons.mp ht2 with h' | h'
      · subst h'
        exact hte
      · exact h t2 h'
    | some e =>
      obtain ⟨hmem, hpk, hmin⟩ := h
      refine ⟨List.mem_cons_of_mem _ hmem, hpk, ?_⟩
      intro t2 ht2 x hx
      rcases List.mem_cons.mp ht2 with h' | h'
      · subst h'
        rw [hte] at hx
        cases hx
      · exact hmin t2 h' x hx
  | some y =>
    have hyspec := (heapPeek_spec _).2 y hp
    cases f1 with
    | none =>
      have hsel : selEarlier (some y) t (none, f2) = (some y, t) := by
        unfold selEarlier optEarlier
        simp
      rw [hsel]
      refine ⟨List.mem_cons_self _ _, hp, ?_⟩
      intro t2 ht2 x hx
      rcases List.mem_cons.mp ht2 with h' | h'
      · subst h'
        exact heapPeek_min hp x hx
      · rw [h t2 h'] at hx
        cases hx
    | some e =>
      obtain ⟨hmem, hpk, hmin⟩ := h
      by_cases hk : keyLt (simKey y) (simKey e) = true
      · have hsel : selEarlier (some y) t (some e, f2) = (some y, t) := by
          unfold selEarlier optEarlier
          simp [hk]
        rw [hsel]
        refine ⟨List.mem_cons_self _ _, hp, ?_⟩
        intro t2 ht2 x hx
        rcases List.mem_cons.mp ht2 with h' | h'
        · subst h'
          exact heapPeek_min hp x hx
        · have h1 := hmin t2 h' x hx
          by_cases hxy : keyLt (simKey x) (simKey y) = true
          · rw [keyLt_trans hxy hk] at h1
            cases h1
          · exact boolFalse hxy
      · have hk' : keyLt (simKey y) (simKey e) = false := boolFalse hk
        have hsel : selEarlier (some y) t (some e, f2) = (some e, f2) := by
          unfold selEarlier optEarlier
          simp [hk']
        rw [hsel]
        refine ⟨List.mem_cons_of_mem _ hmem, hpk, ?_⟩
        intro t2 ht2 x hx
        rcases List.mem_cons.mp ht2 with h' | h'
        · subst h'
          exact keyLt_neg_trans hk' (heapPeek_min hp x hx)
        · exact hmin t2 h' x hx

theorem eventQueue_len_zero {q : EventQueue} (h : q.len = 0) :
    q.blocking = [] ∧ q.bypassable = [] ∧ q.internal = [] ∧ q.base = [] := by
  unfold EventQueue.len at h
  refine ⟨?_, ?_, ?_, ?_⟩ <;> rw [← List.length_eq_zero] <;> omega

theorem peekCombine_spec (q : EventQueue) (delay now : Nat)
    {g : Option SimEvent × QueueTag}
    (hm : MinState q [QueueTag.internal, QueueTag.bypassable, QueueTag.blocking] g)
    (hne : q.len ≠ 0) :
    ∃ e tag, peekCombine q.base g delay now =
        some (some e, tag, durSince (effKey delay tag e).1 now) ∧
      heapPeek (q.heapOf tag) = some e ∧
      ∀ tag' x, x ∈ q.heapOf tag' →
        keyLt (effKey delay tag' x) (effKey delay tag e) = false := by
  obtain ⟨g1, g2⟩ := g
  unfold peekCombine
  cases hb : heapPeek q.base with
  | none =>
    have hbase : q.base = [] := (heapPeek_spec _).1 hb
    have hcond : beforeB none g1 delay = false := rfl
    rw [hcond, if_neg Bool.false_ne_true]
    cases g1 with
    | none =>
      exfalso
      apply hne
      have h1 : q.heapOf QueueTag.internal = [] := hm QueueTag.internal (by simp)
      have h2 : q.heapOf QueueTag.bypassable = [] := hm QueueTag.bypassable (by simp)
      have h3 : q.heapOf QueueTag.blocking = [] := hm QueueTag.blocking (by simp)
      unfold EventQueue.len
      rw [show q.internal = [] from h1, show q.bypassable = [] from h2,
        show q.blocking = [] from h3, hbase]
      rfl
    | some e =>
      obtain ⟨hmem, hpk, hmin⟩ := hm
      have hmem' : g2 = QueueTag.internal ∨ g2 = QueueTag.bypassable ∨
          g2 = QueueTag.blocking := by
        simpa using hmem
      have heff : effKey delay g2 e = simKey e := by
        rcases hmem' with h' | h' | h' <;> subst h' <;> rfl
      refine ⟨e, g2, by rw [heff]; rfl, hpk, ?_⟩
      intro tag' x hx
      rw [heff]
      cases tag' with
      | base =>
        rw [show q.heapOf QueueTag.base = q.base from rfl, hbase] at hx
        cases hx
      | internal => exact hmin QueueTag.internal (by simp) x hx
      | bypassable => exact hmin QueueTag.bypassable (by simp) x hx
      | blocking => exact hmin QueueTag.blocking (by simp) x hx
  | some b =>
    have hbspec := (heapPeek_spec _).2 b hb
    by_cases hbf : beforeB (some b) g1 delay = true
    · rw [hbf, if_pos rfl]
      refine ⟨b, QueueTag.base, rfl, hb, ?_⟩
      intro tag' x hx
      cases tag' with
      | base =>
        exact (keyLt_shift (simKey x) (simKey b) delay).trans (hbspec.2 x hx)
      | internal =>
        cases g1 with
        | none =>
          rw [hm QueueTag.internal (by simp)] at hx
          cases hx
        | some e2 =>
          obtain ⟨-, -, hmin⟩ := hm
          have h1 := hmin QueueTag.internal (by simp) x hx
          by_cases hxx : keyLt (simKey x) (effKey delay QueueTag.base b) = true
          · have hbf' : keyLt (effKey delay QueueTag.base b) (simKey e2) = true := hbf
            rw [keyLt_trans hxx hbf'] at h1
            cases h1
          · exact boolFalse hxx
      | bypassable =>
        cases g1 with
        | none =>
          rw [hm QueueTag.bypassable (by simp)] at hx
          cases hx
        | some e2 =>
          obtain ⟨-, -, hmin⟩ := hm
          have h1 := hmin QueueTag.bypassable (by simp) x hx
          by_cases hxx : keyLt (simKey x) (effKey delay QueueTag.base b) = true
          · have hbf' : keyLt (effKey delay QueueTag.base b) (simKey e2) = true := hbf
            rw [keyLt_trans hxx hbf'] at h1
            cases h1
          · exact boolFalse hxx
      | blocking =>
        cases g1 with
        | none =>
          rw [hm QueueTag.blocking (by simp)] at hx
          cases hx
        | some e2 =>
          obtain ⟨-, -, hmin⟩ := hm
          have h1 := hmin QueueTag.blocking (by simp) x hx
          by_cases hxx : keyLt (simKey x) (effKey delay QueueTag.base b) = true
          · have hbf' : keyLt (effKey delay QueueTag.base b) (simKey e2) = true := hbf
            rw [keyLt_trans hxx hbf'] at h1
            cases h1
          · exact boolFalse hxx
    · have hbf' : beforeB (some b) g1 delay = false := boolFalse hbf
      rw [hbf', if_neg Bool.false_ne_true]
      cases g1 with
      | none => exact absurd hbf' (by simp [beforeB])
      | some e2 =>
        obtain ⟨hmem, hpk, hmin⟩ := hm
        have hmem' : g2 = QueueTag.internal ∨ g2 = QueueTag.bypassable ∨
            g2 = QueueTag.blocking := by
          simpa using hmem
        have heff : effKey delay g2 e2 = simKey e2 := by
          rcases hmem' with h' | h' | h' <;> subst h' <;> rfl
        refine ⟨e2, g2, by rw [heff]; rfl, hpk, ?_⟩
        intro tag' x hx
        rw [heff]
        cases tag' with
        | base =>
          refine keyLt_neg_trans (a := simKey e2)
            (b := (b.time + delay, b.event.toUsize)) hbf' ?_
          exact (keyLt_shift (simKey x) (simKey b) delay).trans (hbspec.2 x hx)
        | internal => exact hmin QueueTag.internal (by simp) x hx
        | bypassable => exact hmin QueueTag.bypassable (by simp) x hx
        | blocking => exact hmin QueueTag.blocking (by simp) x hx

theorem eventQueue_peek_spec (q : EventQueue) (delay now : Nat)
    (hne : q.len ≠ 0) :
    ∃ e tag, q.peek delay now =
        some (some e, tag, durSince (effKey delay tag e).1 now) ∧
      heapPeek (q.heapOf tag) = some e ∧
      ∀ tag' x, x ∈ q.heapOf tag' →
        keyLt (effKey delay tag' x) (effKey delay tag e) = false := by
  have hm := selEarlier_minState QueueTag.internal
    (selEarlier_minState QueueTag.bypassable (minState_blocking q))
  unfold EventQueue.peek
  rw [if_neg hne]
  exact peekCombine_spec q delay now hm hne

theorem eventQueue_pop_spec (q : EventQueue) (tag : QueueTag) (delay : Nat)
    {e : SimEvent} (hp : heapPeek (q.heapOf tag) = some e) :
    ∃ e' q', q.pop tag delay = some (some e', q') ∧
      q'.len = q.len - 1 ∧ 1 ≤ q.len ∧
      q'.heapOf tag = (q.heapOf tag).erase e ∧
      (∀ tag', tag' ≠ tag → q'.heapOf tag' = q.heapOf tag') ∧
      (tag = QueueTag.base ∧ delay ≠ 0 → e' = { e with time := e.time + delay }) ∧
      (tag ≠ QueueTag.base ∨ delay = 0 → e' = e) := by
  have hmem := heapPeek_mem hp
  have hpos := List.length_pos_of_mem hmem
  have herase := List.length_erase_of_mem hmem
  cases tag with
  | blocking =>
    have hp' : heapPeek q.blocking = some e := hp
    refine ⟨e, { q with blocking := q.blocking.erase e }, ?_, ?_, ?_, rfl, ?_, ?_, ?_⟩
    · unfold EventQueue.pop heapPop
      rw [hp']
    · simp only [EventQueue.heapOf] at herase hpos
      simp only [EventQueue.len]
      omega
    · simp only [EventQueue.heapOf] at hpos
      simp only [EventQueue.len]
      omega
    · intro tag' hne'
      cases tag' with
      | blocking => exact absurd rfl hne'
      | bypassable => rfl
      | internal => rfl
      | base => rfl
    · rintro ⟨h1, -⟩
      cases h1
    · intro h
      rfl
  | bypassable =>
    have hp' : heapPeek q.bypassable = some e := hp
    refine ⟨e, { q with bypassable := q.bypassable.erase e }, ?_, ?_, ?_, rfl, ?_, ?_, ?_⟩
    · unfold EventQueue.pop heapPop
      rw [hp']
    · simp only [EventQueue.heapOf] at herase hpos
      simp only [EventQueue.len]
      omega
    · simp only [EventQueue.heapOf] at hpos
      simp only [EventQueue.len]
      omega
    · intro tag' hne'
      cases tag' with
      | blocking => rfl
      | bypassable => exact absurd rfl hne'
      | internal => rfl
      | base => rfl
    · rintro ⟨h1, -⟩
      cases h1
    · intro h
      rfl
  | internal =>
    have hp' : heapPeek q.internal = some e := hp
    refine ⟨e, { q with internal := q.internal.erase e }, ?_, ?_, ?_, rfl, ?_, ?_, ?_⟩
    · unfold EventQueue.pop heapPop
      rw [hp']
    · simp only [EventQueue.heapOf] at herase hpos
      simp only [EventQueue.len]
      omega
    · simp only [EventQueue.heapOf] at hpos
      simp only [EventQueue.len]
      omega
    · intro tag' hne'
      cases tag' with
      | blocking => rfl
      | bypassable => rfl
      | internal => exact absurd rfl hne'
      | base => rfl
    · rintro ⟨h1, -⟩
      cases h1
    · intro h
      rfl
  | base =>
    have hp' : heapPeek q.base = some e := hp
    by_cases hd : delay = 0
    · refine ⟨e, { q with base := q.base.erase e }, ?_, ?_, ?_, rfl, ?_, ?_, ?_⟩
      · unfold EventQueue.pop heapPop
        rw [if_pos hd, hp']
      · simp only [EventQueue.heapOf] at herase hpos
        simp only [EventQueue.len]
        omega
      · simp only [EventQueue.heapOf] at hpos
        simp only [EventQueue.len]
        omega
      · intro tag' hne'
        cases tag' with
        | blocking => rfl
        | bypassable => rfl
        | internal => rfl
        | base => exact absurd rfl hne'
      · rintro ⟨-, h2⟩
        exact absurd hd h2
      · intro h
        rfl
    · refine ⟨{ e with time := e.time + delay }, { q with base := q.base.erase e },
        ?_, ?_, ?_, rfl, ?_, ?_, ?_⟩
      · unfold EventQueue.pop heapPop
        rw [if_neg hd, hp']
      · simp only [EventQueue.heapOf] at herase hpos
        simp only [EventQueue.len]
        omega
      · simp only [EventQueue.heapOf] at hpos
        simp only [EventQueue.len]
        omega
      · intro tag' hne'
        cases tag' with
        | blocking => rfl
        | bypassable => rfl
        | internal => rfl
        | base => exact absurd rfl hne'
      · intro h
        rfl
      · intro h
        rcases h with h | h
        · exact absurd rfl h
        · exact absurd h hd

theorem simQueue_pop_spec (s : SimQueue) (tag : QueueTag) (c : Bool)
    (delay : Nat) {e : SimEvent}
    (hp : heapPeek ((s.endpoint c).heapOf tag) = some e) :
    ∃ e' s', s.pop tag c delay = some (some e', s') ∧
      s'.len = s.len - 1 ∧
      (s'.endpoint c).heapOf tag = ((s.endpoint c).heapOf tag).erase e ∧
      (∀ c' tag', (c' ≠ c ∨ tag' ≠ tag) →
        (s'.endpoint c').heapOf tag' = (s.endpoint c').heapOf tag') ∧
      (tag = QueueTag.base ∧ delay ≠ 0 → e' = { e with time := e.time + delay }) ∧
      (tag ≠ QueueTag.base ∨ delay = 0 → e' = e) := by
  cases c with
  | true =>
    obtain ⟨e', q', hpop, hlen, hpos, hheap, hframe, hb1, hb2⟩ :=
      eventQueue_pop_spec s.client tag delay hp
    refine ⟨e', { s with client := q' }, ?_, ?_, hheap, ?_, hb1, hb2⟩
    · unfold SimQueue.pop
      rw [hpop]
      rfl
    · simp only [SimQueue.len]
      omega
    · intro c' tag' hor
      cases c' with
      | true =>
        rcases hor with h | h
        · exact absurd rfl h
        · exact hframe tag' h
      | false => rfl
  | false =>
    obtain ⟨e', q', hpop, hlen, hpos, hheap, hframe, hb1, hb2⟩ :=
      eventQueue_pop_spec s.server tag delay hp
    refine ⟨e', { s with server := q' }, ?_, ?_, hheap, ?_, hb1, hb2⟩
    · unfold SimQueue.pop
      rw [hpop]
      rfl
    · simp only [SimQueue.len]
      omega
    · intro c' tag' hor
      cases c' with
      | false =>
        rcases hor with h | h
        · exact absurd rfl h
        · exact hframe tag' h
      | true => rfl

theorem heapOf_empty_of_len_zero {q : EventQueue} (h : q.len = 0)
    (tag : QueueTag) : q.heapOf tag = [] := by
  obtain ⟨h1, h2, h3, h4⟩ := eventQueue_len_zero h
  cases tag with
  | blocking => exact h1
  | bypassable => exact h2
  | internal => exact h3
  | base => exact h4

/-- C9 (amended): on a non-empty `SimQueue` whose events are all still
pending (`now` at or before every effective time), `peek` returns the
event minimizing (effective time, event rank) over all eight sub-heaps,
where a base event's effective time is its stored time plus the network
delay sum; the returned duration is the effective time minus `now`;
popping the returned tag at the winning endpoint removes exactly that
event and decreases `len` by one; and a popped base event's `time` is
rewritten to `time + network_delay_sum` when the delay sum is nonzero.
Without the pending hypothesis the minimality clause fails (see the
counterexample): the saturating `duration_since` collapses past-due
events to duration zero and the tie-break then picks by rank alone. -/
theorem simQueue_peek_pop_min (s : SimQueue) (delay now : Nat)
    (hne : s.len ≠ 0)
    (hfresh : ∀ (c : Bool) (tag : QueueTag), ∀ x ∈ (s.endpoint c).heapOf tag,
      now ≤ (effKey delay tag x).1) :
    ∃ (e : SimEvent) (tag : QueueTag) (c : Bool) (d : Nat),
      s.peek delay now = some (some e, tag, d) ∧
      heapPeek ((s.endpoint c).heapOf tag) = some e ∧
      d = (effKey delay tag e).1 - now ∧
      (∀ (c' : Bool) (tag' : QueueTag), ∀ x ∈ (s.endpoint c').heapOf tag',
        keyLt (effKey delay tag' x) (effKey delay tag e) = false) ∧
      ∃ e' s', s.pop tag c delay = some (some e', s') ∧
        s'.len = s.len - 1 ∧
        (s'.endpoint c).heapOf tag = ((s.endpoint c).heapOf tag).erase e ∧
        (∀ (c' : Bool) (tag' : QueueTag), (c' ≠ c ∨ tag' ≠ tag) →
          (s'.endpoint c').heapOf tag' = (s.endpoint c').heapOf tag') ∧
        (tag = QueueTag.base ∧ delay ≠ 0 →
          e' = { e with time := e.time + delay }) ∧
        (tag ≠ QueueTag.base ∨ delay = 0 → e' = e) := by
  by_cases hc : s.client.len = 0
  · have hs : s.server.len ≠ 0 := by
      unfold SimQueue.len at hne
      omega
    obtain ⟨e, tag, hpeek, hpk, hmin⟩ := eventQueue_peek_spec s.server delay now hs
    have hcpeek : s.client.peek delay now = some (none, QueueTag.blocking, 0) := by
      unfold EventQueue.peek
      rw [if_pos hc]
    have hpv : s.peek delay now =
        some (some e, tag, durSince (effKey delay tag e).1 now) := by
      unfold SimQueue.peek
      rw [if_neg hne, hcpeek, hpeek]
      rfl
    refine ⟨e, tag, false, durSince (effKey delay tag e).1 now, hpv, hpk, rfl, ?_, ?_⟩
    · intro c' tag' x hx
      cases c' with
      | true =>
        rw [show (s.endpoint true).heapOf tag' = s.client.heapOf tag' from rfl,
          heapOf_empty_of_len_zero hc tag'] at hx
        cases hx
      | false => exact hmin tag' x hx
    · exact simQueue_pop_spec s tag false delay hpk
  · by_cases hsv : s.server.len = 0
    · obtain ⟨e, tag, hpeek, hpk, hmin⟩ := eventQueue_peek_spec s.client delay now hc
      have hspeek : s.server.peek delay now = some (none, QueueTag.blocking, 0) := by
        unfold EventQueue.peek
        rw [if_pos hsv]
      have hpv : s.peek delay now =
          some (some e, tag, durSince (effKey delay tag e).1 now) := by
        unfold SimQueue.peek
        rw [if_neg hne, hpeek, hspeek]
        rfl
      refine ⟨e, tag, true, durSince (effKey delay tag e).1 now, hpv, hpk, rfl, ?_, ?_⟩
      · intro c' tag' x hx
        cases c' with
        | false =>
          rw [show (s.endpoint false).heapOf tag' = s.server.heapOf tag' from rfl,
            heapOf_empty_of_len_zero hsv tag'] at hx
          cases hx
        | true => exact hmin tag' x hx
      · exact simQueue_pop_spec s tag true delay hpk
    · obtain ⟨ce, ctag, hcp, hcpk, hcmin⟩ := eventQueue_peek_spec s.client delay now hc
      obtain ⟨se, stag, hsp, hspk, hsmin⟩ := eventQueue_peek_spec s.server delay now hsv
      have hfc : now ≤ (effKey delay ctag ce).1 :=
        hfresh true ctag ce (heapPeek_mem hcpk)
      have hfs : now ≤ (effKey delay stag se).1 :=
        hfresh false stag se (heapPeek_mem hspk)
      have hpv : s.peek delay now = some (simCombine
          (some ce, ctag, durSince (effKey delay ctag ce).1 now)
          (some se, stag, durSince (effKey delay stag se).1 now)) := by
        unfold SimQueue.peek
        rw [if_neg hne, hcp, hsp]
      have hcomb : simCombine
          (some ce, ctag, durSince (effKey delay ctag ce).1 now)
          (some se, stag, durSince (effKey delay stag se).1 now) =
          if durSince (effKey delay ctag ce).1 now <
              durSince (effKey delay stag se).1 now ∨
            (durSince (effKey delay ctag ce).1 now =
              durSince (effKey delay stag se).1 now ∧
             ce.event.toUsize < se.event.toUsize) then
            (some ce, ctag, durSince (effKey delay ctag ce).1 now)
          else
            (some se, stag, durSince (effKey delay stag se).1 now) := rfl
      rw [hcomb] at hpv
      by_cases hcase : durSince (effKey delay ctag ce).1 now <
          durSince (effKey delay stag se).1 now ∨
          (durSince (effKey delay ctag ce).1 now =
            durSince (effKey delay stag se).1 now ∧
           ce.event.toUsize < se.event.toUsize)
      · rw [if_pos hcase] at hpv
        have hkey : keyLt (effKey delay ctag ce) (effKey delay stag se) = true := by
          simp only [keyLt, decide_eq_true_eq, effKey_rank]
          unfold durSince at hcase
          omega
        refine ⟨ce, ctag, true, durSince (effKey delay ctag ce).1 now, hpv, hcpk,
          rfl, ?_, ?_⟩
        · intro c' tag' x hx
          cases c' with
          | true => exact hcmin tag' x hx
          | false =>
            have h1 := hsmin tag' x hx
            by_cases hxx : keyLt (effKey delay tag' x) (effKey delay ctag ce) = true
            · rw [keyLt_trans hxx hkey] at h1
              cases h1
            · exact boolFalse hxx
        · exact simQueue_pop_spec s ctag true delay hcpk
      · rw [if_neg hcase] at hpv
        have hkey : keyLt (effKey delay ctag ce) (effKey delay stag se) = false := by
          simp only [keyLt, decide_eq_false_iff_not, effKey_rank]
          unfold durSince at hcase
          omega
        refine ⟨se, stag, false, durSince (effKey delay stag se).1 now, hpv, hspk,
          rfl, ?_, ?_⟩
        · intro c' tag' x hx
          cases c' with
          | false => exact hsmin tag' x hx
          | true => exact keyLt_neg_trans hkey (hcmin tag' x hx)
        · exact simQueue_pop_spec s stag false delay hspk

/-- A client-side internal event at time 5 with the smallest rank. -/
def evQ9c : SimEvent :=
  { event := .normalRecv, time := 5, integration_delay := 0, client := true,
    contains_padding := false, bypass := false, replace := false,
    base_delay := none }

/-- A server-side event at time 3 with a larger rank. -/
def evQ9s : SimEvent :=
  { event := .paddingRecv, time := 3, integration_delay := 0, client := false,
    contains_padding := false, bypass := false, replace := false,
    base_delay := none }

/-- An empty `EventQueue`. -/
def exEQempty : EventQueue :=
  { base := [], blocking := [], bypassable := [], internal := [] }

/-- Concrete queue for the C9 witness: one pending client internal event,
one pending server base event. -/
def exSQ9 : SimQueue :=
  { client := { exEQempty with internal := [evQ9c] },
    server := { exEQempty with base := [evQ9s] } }

theorem simQueue_peek_pop_min_witness :
    ∃ (e : SimEvent) (tag : QueueTag) (c : Bool) (d : Nat),
      exSQ9.peek 2 0 = some (some e, tag, d) ∧
      heapPeek ((exSQ9.endpoint c).heapOf tag) = some e ∧
      d = (effKey 2 tag e).1 - 0 ∧
      (∀ (c' : Bool) (tag' : QueueTag), ∀ x ∈ (exSQ9.endpoint c').heapOf tag',
        keyLt (effKey 2 tag' x) (effKey 2 tag e) = false) ∧
      ∃ e' s', exSQ9.pop tag c 2 = some (some e', s') ∧
        s'.len = exSQ9.len - 1 ∧
        (s'.endpoint c).heapOf tag = ((exSQ9.endpoint c).heapOf tag).erase e ∧
        (∀ (c' : Bool) (tag' : QueueTag), (c' ≠ c ∨ tag' ≠ tag) →
          (s'.endpoint c').heapOf tag' = (exSQ9.endpoint c').heapOf tag') ∧
        (tag = QueueTag.base ∧ (2 : Nat) ≠ 0 →
          e' = { e with time := e.time + 2 }) ∧
        (tag ≠ QueueTag.base ∨ (2 : Nat) = 0 → e' = e) :=
  simQueue_peek_pop_min exSQ9 2 0 (by decide) (by decide)

/-- Concrete stale queue: both endpoints hold one past-due internal
event (`now = 10` is after both times 5 and 3). -/
def exSQstale : SimQueue :=
  { client := { exEQempty with internal := [evQ9c] },
    server := { exEQempty with internal := [evQ9s] } }

/-- With `now` past both events, `SimQueue::peek` returns the client
event at time 5 even though the server holds an event with strictly
smaller effective time 3: both saturating `duration_since` values are 0,
so the rank tie-break picks `NormalRecv` (rank 0) over `PaddingRecv`
(rank 2).  This refutes the unamended minimum-effective-time claim. -/
theorem simQueue_peek_returns_late_event :
    exSQstale.peek 0 10 = some (some evQ9c, QueueTag.internal, 0) ∧
    evQ9s ∈ exSQstale.server.heapOf QueueTag.internal ∧
    keyLt (effKey 0 QueueTag.internal evQ9s)
      (effKey 0 QueueTag.internal evQ9c) = true := by
  refine ⟨by decide, by decide, by decide⟩

/-- C10: with an empty base sub-heap, popping tag `Base` through the
public `SimQueue::pop` is total only when the network delay sum is zero
(it returns `None` and leaves the queue unchanged); with a nonzero delay
sum the implementation `.unwrap()`s the empty heap pop and panics
(modelled as `none`), so the panic is reachable from the public pop
interface. -/
theorem simQueue_pop_base_empty (s : SimQueue) (c : Bool) (delay : Nat)
    (h : (s.endpoint c).base = []) :
    (delay = 0 → s.pop QueueTag.base c delay = some (none, s)) ∧
    (delay ≠ 0 → s.pop QueueTag.base c delay = none) := by
  cases c with
  | true =>
    have h' : s.client.base = [] := h
    constructor
    · intro hd
      subst hd
      have hq : s.client.pop QueueTag.base 0 = some (none, s.client) := by
        unfold EventQueue.pop heapPop
        rw [h']
        rfl
      unfold SimQueue.pop
      rw [hq]
      rfl
    · intro hd
      have hq : s.client.pop QueueTag.base delay = none := by
        unfold EventQueue.pop heapPop
        rw [h', if_neg hd]
        rfl
      unfold SimQueue.pop
      rw [hq]
      rfl
  | false =>
    have h' : s.server.base = [] := h
    constructor
    · intro hd
      subst hd
      have hq : s.server.pop QueueTag.base 0 = some (none, s.server) := by
        unfold EventQueue.pop heapPop
        rw [h']
        rfl
      unfold SimQueue.pop
      rw [hq]
      rfl
    · intro hd
      have hq : s.server.pop QueueTag.base delay = none := by
        unfold EventQueue.pop heapPop
        rw [h', if_neg hd]
        rfl
      unfold SimQueue.pop
      rw [hq]
      rfl

theorem simQueue_pop_base_empty_witness :
    ((5 : Nat) = 0 → exSQstale.pop QueueTag.base true 5 = some (none, exSQstale)) ∧
    ((5 : Nat) ≠ 0 → exSQstale.pop QueueTag.base true 5 = none) :=
  simQueue_pop_base_empty exSQstale true 5 (by decide)

end Maybenot
